import Mathlib

/-!
Verification of the heap object model and memory manager of the Wren-style
scripting runtime (files src/vm/wren_utils.c and src/vm/wren_value.c).

The C code is shallowly embedded: machine integers become Nat (with explicit
reduction mod 2 ^ 32 where 32-bit wraparound is semantically relevant, e.g.
the FNV hash accumulator and the uint32 length parameter of wrenUtf8Decode);
container sizes (map capacity and count, list capacity and count) are
idealised as unbounded Nat, matching the C behaviour on every state the
allocator could physically produce.  C functions whose loops can read out of
bounds or fail to terminate are embedded as Option-returning functions, where
none models the undefined or diverging execution; a result of some x means
the C execution is defined and returns x.  Byte strings are List Nat.
-/

namespace WrenSpec

/-! ## UTF-8 (src/vm/wren_utils.c) -/

/-- wrenUtf8NumBytes: byte count needed to encode a code point
(the negative-value assertion is vacuous for Nat). -/
def wrenUtf8NumBytes (value : Nat) : Nat :=
  if value ≤ 0x7f then 1
  else if value ≤ 0x7ff then 2
  else if value ≤ 0xffff then 3
  else if value ≤ 0x10ffff then 4
  else 0

/-- wrenUtf8Encode: the list of bytes written through the output pointer.
Out-of-range values hit ASSERT(false); they write nothing, modelled as []. -/
def wrenUtf8Encode (value : Nat) : List Nat :=
  if value ≤ 0x7f then
    [value &&& 0x7f]
  else if value ≤ 0x7ff then
    [0xc0 ||| ((value &&& 0x7c0) >>> 6),
     0x80 ||| (value &&& 0x3f)]
  else if value ≤ 0xffff then
    [0xe0 ||| ((value &&& 0xf000) >>> 12),
     0x80 ||| ((value &&& 0xfc0) >>> 6),
     0x80 ||| (value &&& 0x3f)]
  else if value ≤ 0x10ffff then
    [0xf0 ||| ((value &&& 0x1c0000) >>> 18),
     0x80 ||| ((value &&& 0x3f000) >>> 12),
     0x80 ||| ((value &&& 0xfc0) >>> 6),
     0x80 ||| (value &&& 0x3f)]
  else []

/-- The while loop at the end of wrenUtf8Decode: consume `remaining`
continuation bytes starting at offset `pos`, accumulating into `value`.
Bytes beyond the end of the list read as 0 (which fails the 10xxxxxx check,
like any byte the C code could only reach via the guarded length test). -/
def utf8DecodeLoop (bytes : List Nat) (pos value : Nat) : Nat → Int
  | 0 => Int.ofNat value
  | remaining + 1 =>
    let b := bytes.getD pos 0
    if b &&& 0xc0 ≠ 0x80 then -1
    else utf8DecodeLoop bytes (pos + 1) ((value <<< 6) ||| (b &&& 0x3f)) remaining

/-- wrenUtf8Decode.  `length` is the uint32 `remainingLen` parameter, reduced
mod 2 ^ 32 like the C calling convention does; the truncation guard
`remainingBytes > length - 1` uses wrapping uint32 subtraction. -/
def wrenUtf8Decode (bytes : List Nat) (length : Nat) : Int :=
  let len := length % 4294967296
  let lenSub1 := (len + 4294967295) % 4294967296
  let b0 := bytes.getD 0 0
  if b0 ≤ 0x7f then Int.ofNat b0
  else if b0 &&& 0xe0 = 0xc0 then
    if 1 > lenSub1 then -1 else utf8DecodeLoop bytes 1 (b0 &&& 0x1f) 1
  else if b0 &&& 0xf0 = 0xe0 then
    if 2 > lenSub1 then -1 else utf8DecodeLoop bytes 1 (b0 &&& 0x0f) 2
  else if b0 &&& 0xf8 = 0xf0 then
    if 3 > lenSub1 then -1 else utf8DecodeLoop bytes 1 (b0 &&& 0x07) 3
  else -1

/-- The number of continuation bytes announced by a lead byte, as classified
by the branch structure of wrenUtf8Decode. -/
def utf8ContBytes (b0 : Nat) : Nat :=
  if b0 &&& 0xe0 = 0xc0 then 1
  else if b0 &&& 0xf0 = 0xe0 then 2
  else if b0 &&& 0xf8 = 0xf0 then 3
  else 0

/-! ## Values, hashing and equality (src/vm/wren_value.c)

A Value is the tagged-union encoding restricted to the hashable kinds the
map can store: the primitives plus string, range and fiber objects.  A
number is represented by the bit pattern of its IEEE-754 binary64 value
(only the bits are ever inspected by hashing and, through IEEE equality,
by comparison).  A string object carries its byte content; its stored hash
field always equals the FNV-1a of the content because every construction
path (wrenNewString, wrenStringFromCodePoint, wrenStringFormat,
wrenStringCodePointAt) calls hashString before the string escapes.  A fiber
carries its unique monotonically-assigned id, so fiber pointer identity
coincides with id equality. -/

inductive Value where
  | vFalse
  | vNull
  | vTrue
  | vUndefined
  | vNum (bits : Nat)
  | vStr (bytes : List Nat)
  | vRange (fromBits toBits : Nat) (isInclusive : Bool)
  | vFiber (id : Nat)
deriving DecidableEq

def isUndefinedV : Value → Bool
  | .vUndefined => true
  | _ => false

def isFalseV : Value → Bool
  | .vFalse => true
  | _ => false

/-- IEEE-754 binary64 NaN bit patterns: exponent all ones, mantissa ≠ 0. -/
def isNaNBits (bits : Nat) : Bool :=
  ((bits >>> 52) &&& 0x7ff == 0x7ff) && (bits &&& 0xfffffffffffff != 0)

/-- IEEE-754 binary64 zeros: +0 (all bits clear) and -0 (only sign bit). -/
def isZeroBits (bits : Nat) : Bool := bits &&& 0x7fffffffffffffff == 0

/-- Modelled from the spec: the number case of `wrenValuesSame`, which lives
in the missing header wren_value.h.  Spec 4.2: "same(a,b) is bitwise/tag
equality; for numbers this is IEEE-754 equality (so NaN ≠ NaN; −0 == +0)".
On bit patterns, IEEE equality is: false if either operand is a NaN, true
if both are zeros, otherwise bit-pattern equality. -/
def doubleEq (a b : Nat) : Bool :=
  if isNaNBits a || isNaNBits b then false
  else if isZeroBits a && isZeroBits b then true
  else a == b

/-- Modelled from the spec: `wrenValuesSame` (missing header wren_value.h):
tag equality for the singleton primitives, IEEE equality for numbers,
pointer identity for heap objects.  Fiber identity is id equality.  For
string and range objects, identity of one object with itself is subsumed by
the content comparison in wrenValuesEqual below, so the object case here
conservatively answers false. -/
def wrenValuesSame (a b : Value) : Bool :=
  match a, b with
  | .vFalse, .vFalse => true
  | .vNull, .vNull => true
  | .vTrue, .vTrue => true
  | .vUndefined, .vUndefined => true
  | .vNum x, .vNum y => doubleEq x y
  | .vFiber i, .vFiber j => i == j
  | _, _ => false

/-- hashString: FNV-1a over the bytes.  The accumulator is uint32; the C
expression `hash ^= string->value[i]` reads a (signed) char, so bytes ≥ 0x80
are sign-extended to 32 bits before the XOR. -/
def fnv1aStep (hash b : Nat) : Nat :=
  ((hash ^^^ (if b ≤ 0x7f then b else 0xffffff00 + b)) * 16777619) % 4294967296

def hashString (bytes : List Nat) : Nat := bytes.foldl fnv1aStep 2166136261

/-- hashNumber: XOR of the two 32-bit halves of the double's bit pattern. -/
def hashNumber (bits : Nat) : Nat :=
  (bits % 4294967296) ^^^ (bits / 4294967296 % 4294967296)

/-- hashObject, restricted to the hashable object kinds kept in Value.
(Classes hash via their name string and are not modelled; other kinds hit
ASSERT(false) and return 0.) -/
def hashObject : Value → Nat
  | .vStr bytes => hashString bytes
  | .vRange f t _ => hashNumber f ^^^ hashNumber t
  | .vFiber id => id % 4294967296
  | _ => 0

/-- hashValue, tagged-union branch (the #else arm, fully present in src):
VAL_FALSE → 0, VAL_NULL → 1, VAL_NUM → hashNumber, VAL_TRUE → 2, objects →
hashObject.  The default arm (UNDEFINED) is UNREACHABLE(); return 0. -/
def hashValue : Value → Nat
  | .vFalse => 0
  | .vNull => 1
  | .vNum bits => hashNumber bits
  | .vTrue => 2
  | .vUndefined => 0
  | v => hashObject v

/-- hashValue, NaN-boxing branch, non-object case (present in src): XOR of
the two 32-bit halves of the boxed 64-bit pattern. -/
def hashValueNanBoxedPrim (bits64 : Nat) : Nat :=
  (bits64 % 4294967296) ^^^ (bits64 / 4294967296 % 4294967296)

/-- Modelled from the spec: the NaN-boxed representation of a singleton
(false/true/null/undefined), from the missing header wren_value.h.  Spec 3:
a quiet-NaN bit pattern carrying a 3-bit tag.  QNAN is the canonical quiet
NaN 0x7ffc000000000000 and the 3-bit tag sits in the low bits. -/
def nanBoxSingleton (tag : Nat) : Nat := 0x7ffc000000000000 ||| tag

/-- wrenValuesEqual: same, or both strings with equal length, hash and
bytes, or both ranges with equal from/to/isInclusive (IEEE equality on the
endpoints). -/
def wrenValuesEqual (a b : Value) : Bool :=
  if wrenValuesSame a b then true
  else
    match a, b with
    | .vRange f1 t1 i1, .vRange f2 t2 i2 =>
        doubleEq f1 f2 && doubleEq t1 t2 && (i1 == i2)
    | .vStr s1, .vStr s2 =>
        (s1.length == s2.length) && (hashString s1 == hashString s2) && (s1 == s2)
    | _, _ => false

/-! ## Lists (wrenListRemoveAt) -/

structure ObjList where
  capacity : Nat
  count : Nat
  data : List Value
deriving DecidableEq

/-- wrenListRemoveAt: reads the element at `index`, shifts the elements
above it down (net effect on the used prefix: eraseIdx), halves the
elements buffer when `capacity / GROW_FACTOR >= count` (count still
pre-decrement at that point), then decrements count and returns the removed
element.  The root push/pop around the shift do not affect the list. -/
def wrenListRemoveAt (l : ObjList) (index : Nat) : ObjList × Value :=
  let removed := l.data.getD index .vNull
  let data := l.data.eraseIdx index
  let capacity := if l.capacity / 2 ≥ l.count then l.capacity / 2 else l.capacity
  (⟨capacity, l.count - 1, data⟩, removed)

/-! ## Classes (wrenNewClass, wrenBindSuperclass, wrenBindMethod) -/

/-- Modelled from the spec: the Method record (missing header wren_value.h)
is a tag {NONE, PRIMITIVE, FOREIGN, BLOCK} plus a payload (primitive
function pointer or fn object), abstracted as a Nat payload. -/
inductive MethodType where
  | noneType
  | primitive
  | foreignFn
  | block
deriving DecidableEq

structure Method where
  type : MethodType
  payload : Nat
deriving DecidableEq

def methodNone : Method := ⟨.noneType, 0⟩

/-- An ObjClass as far as the construction claims observe it: field count,
name bytes and the method table.  (The superclass and metaclass pointers
participate only in GC marking and are not needed by the claims.) -/
structure ObjClass where
  numFields : Nat
  name : List Nat
  methods : List Method
deriving DecidableEq

/-- wrenBindMethod: grow the method buffer with METHOD_NONE up to the
symbol index if needed, then store the method at that slot. -/
def wrenBindMethod (classObj : ObjClass) (symbol : Nat) (m : Method) : ObjClass :=
  let methods :=
    if symbol ≥ classObj.methods.length then
      classObj.methods ++
        List.replicate (symbol - classObj.methods.length + 1) methodNone
    else classObj.methods
  { classObj with methods := methods.set symbol m }

/-- wrenBindSuperclass: add the superclass's numFields and copy every
superclass method slot into the subclass via wrenBindMethod. -/
def wrenBindSuperclass (subclass superclass : ObjClass) : ObjClass :=
  let subclass :=
    { subclass with numFields := subclass.numFields + superclass.numFields }
  (List.range superclass.methods.length).foldl
    (fun c i => wrenBindMethod c i (superclass.methods.getD i methodNone))
    subclass

def wrenNewSingleClass (numFields : Nat) (name : List Nat) : ObjClass :=
  ⟨numFields, name, []⟩

/-- wrenNewClass: build the metaclass (named name ++ " metaclass" via
wrenStringFormat, 0 fields, superclass-bound to the root class Class), then
the class itself (numFields fields, superclass-bound to the given
superclass).  Returns (class, metaclass). -/
def wrenNewClass (classClass superclass : ObjClass) (numFields : Nat)
    (name : List Nat) : ObjClass × ObjClass :=
  let metaclassName := name ++ [32, 109, 101, 116, 97, 99, 108, 97, 115, 115]
  let metaclass := wrenNewSingleClass 0 metaclassName
  let metaclass := wrenBindSuperclass metaclass classClass
  let classObj := wrenNewSingleClass numFields name
  let classObj := wrenBindSuperclass classObj superclass
  (classObj, metaclass)

/-! ## String search (wrenStringFind)

The source declares the Boyer-Moore-Horspool shift table as
`uint32_t shift[UINT8_MAX]`, i.e. with 255 entries: byte value 0xFF indexes
one past the end, in the preprocessing write as well as in the search read.
The table is a List Nat of that length; an access at index 255 falls outside
it and aborts the model with none (undefined behaviour in C). -/

def shiftTableSize : Nat := 255

/-- One iteration of the preprocessing loop: store the distance to the
needle end, keyed by the byte at position `index` (out-of-bounds write for
byte 0xFF aborts with none). -/
def shiftStep (needle : List Nat) (needleEnd : Nat)
    (acc : Option (List Nat)) (index : Nat) : Option (List Nat) :=
  match acc with
  | none => none
  | some tbl =>
    let c := needle.getD index 0
    if c < shiftTableSize then some (tbl.set c (needleEnd - index))
    else none

/-- The two preprocessing loops: initialise all shiftTableSize entries to
the needle length, then for each needle position before the last store the
distance to the end, keyed by the byte at that position. -/
def buildShiftTable (needle : List Nat) : Option (List Nat) :=
  let needleEnd := needle.length - 1
  (List.range needleEnd).foldl (shiftStep needle needleEnd)
    (some (List.replicate shiftTableSize needle.length))

/-- The search loop: at each window, compare the last character and, on a
hit, memcmp the first needleEnd bytes; otherwise advance by the shift-table
entry for the byte under the window end.  A table access out of bounds
(byte 0xFF) yields none. -/
def stringFindLoop (haystack needle tbl : List Nat)
    (needleEnd lastChar range : Nat) : Nat → Nat → Option Nat
  | 0, _ => none
  | fuel + 1, index =>
    if index > range then some 4294967295
    else
      let c := haystack.getD (index + needleEnd) 0
      if lastChar == c &&
          ((haystack.drop index).take needleEnd == needle.take needleEnd) then
        some index
      else
        match tbl.get? c with
        | none => none
        | some s =>
          stringFindLoop haystack needle tbl needleEnd lastChar range fuel
            (index + s)

/-- wrenStringFind.  Every stored shift is at least 1, so range + 2 loop
iterations always suffice; none therefore means exactly that the C code
touched shift[255]. -/
def wrenStringFind (haystack needle : List Nat) : Option Nat :=
  if needle.length = 0 then some 0
  else if needle.length > haystack.length then some 4294967295
  else
    match buildShiftTable needle with
    | none => none
    | some tbl =>
      let needleEnd := needle.length - 1
      let lastChar := needle.getD needleEnd 0
      let range := haystack.length - needle.length
      stringFindLoop haystack needle tbl needleEnd lastChar range (range + 2) 0

/-- The needle occurs in the haystack at byte offset i. -/
def matchAt (haystack needle : List Nat) (i : Nat) : Prop :=
  i + needle.length ≤ haystack.length ∧
  (haystack.drop i).take needle.length = needle

/-! ## Hash map (src/vm/wren_value.c)

The entry table is a List MapEntry whose length equals the capacity.
Truly-empty slot: key undefined, value false.  Tombstone: key undefined,
value true.  The probe loops of addEntry and findEntry traverse the table
identically — both stop at the first truly-empty slot or at the first
occupied slot with a wrenValuesEqual key, and both skip tombstones — so the
model shares one probeLoop returning the stop slot.  The C loops can only
exit by stopping; if no stopping slot exists they spin forever.  The probe
sequence is periodic with period capacity, so a fuel of capacity is exact:
none models the diverging (or otherwise undefined) C execution.  Count and
capacity are uint32 in C and idealised as Nat here; no physically
realisable state overflows them. -/

structure MapEntry where
  key : Value
  value : Value
deriving DecidableEq

structure ObjMap where
  capacity : Nat
  count : Nat
  entries : List MapEntry
deriving DecidableEq

def wrenNewMap : ObjMap := ⟨0, 0, []⟩

def emptyEntry : MapEntry := ⟨.vUndefined, .vFalse⟩

def tombstoneEntry : MapEntry := ⟨.vUndefined, .vTrue⟩

def isEmptyE (e : MapEntry) : Bool := isUndefinedV e.key && isFalseV e.value

def isOccupiedE (e : MapEntry) : Bool := !(isUndefinedV e.key)

/-- The shared probe-stop test: a truly-empty slot stops the probe (the key
is absent / gets inserted here); an occupied slot stops it when its key is
wrenValuesEqual to the probe key; tombstones and other occupied slots are
skipped. -/
def slotStops (e : MapEntry) (k : Value) : Bool :=
  if isUndefinedV e.key then isFalseV e.value
  else wrenValuesEqual e.key k

def probeLoop (entries : List MapEntry) (capacity : Nat) (k : Value) :
    Nat → Nat → Option Nat
  | 0, _ => none
  | fuel + 1, idx =>
    match entries.get? idx with
    | none => none
    | some e =>
      if slotStops e k then some idx
      else probeLoop entries capacity k fuel ((idx + 1) % capacity)

/-- addEntry: probe from hashValue(key) % capacity; insert at a truly-empty
stop (returns true: first time this key is added) or overwrite the value at
a key-equal stop (returns false). -/
def addEntry (entries : List MapEntry) (capacity : Nat) (k v : Value) :
    Option (List MapEntry × Bool) :=
  match probeLoop entries capacity k capacity (hashValue k % capacity) with
  | none => none
  | some s =>
    match entries.get? s with
    | none => none
    | some e =>
      if isUndefinedV e.key then some (entries.set s ⟨k, v⟩, true)
      else some (entries.set s ⟨e.key, v⟩, false)

/-- One iteration of the re-adding loop in resizeMap: skip undefined-key
slots (empties and tombstones, which are dropped), re-add occupied ones. -/
def resizeEntriesStep (capacity : Nat) (acc : Option (List MapEntry))
    (e : MapEntry) : Option (List MapEntry) :=
  match acc with
  | none => none
  | some es =>
    if isUndefinedV e.key then some es
    else
      match addEntry es capacity e.key e.value with
      | none => none
      | some (es2, _) => some es2

/-- resizeMap: allocate a fresh table of `capacity` empty entries, re-add
every occupied entry of the old table (the loop runs over the old capacity;
with the length invariant that is the whole entry list), leave count
unchanged. -/
def resizeMap (m : ObjMap) (capacity : Nat) : Option ObjMap :=
  match (m.entries.take m.capacity).foldl (resizeEntriesStep capacity)
      (some (List.replicate capacity emptyEntry)) with
  | none => none
  | some es => some ⟨capacity, m.count, es⟩

/-- findEntry: NULL (some none) for a capacity-0 map; otherwise probe and
report the stop slot — an empty stop means absent (some none), a key-equal
stop means found (some (some s)). -/
def findEntry (m : ObjMap) (k : Value) : Option (Option Nat) :=
  if m.capacity = 0 then some none
  else
    match probeLoop m.entries m.capacity k m.capacity
        (hashValue k % m.capacity) with
    | none => none
    | some s =>
      match m.entries.get? s with
      | none => none
      | some e => if isUndefinedV e.key then some none else some (some s)

def wrenMapGet (m : ObjMap) (k : Value) : Option Value :=
  match findEntry m k with
  | none => none
  | some none => some .vUndefined
  | some (some s) =>
    match m.entries.get? s with
    | none => none
    | some e => some e.value

/-- wrenMapSet: grow to max(MIN_CAPACITY, capacity * GROW_FACTOR) and
rehash when count + 1 would exceed 75% of capacity, then addEntry,
incrementing count when a new key was added. -/
def wrenMapSet (m : ObjMap) (k v : Value) : Option ObjMap :=
  match (if m.count + 1 > m.capacity * 75 / 100 then
      resizeMap m (if m.capacity * 2 < 16 then 16 else m.capacity * 2)
    else some m) with
  | none => none
  | some m1 =>
    match addEntry m1.entries m1.capacity k v with
    | none => none
    | some (es, added) =>
      some ⟨m1.capacity, if added then m1.count + 1 else m1.count, es⟩

def wrenMapClear (_ : ObjMap) : ObjMap := ⟨0, 0, []⟩

/-- wrenMapRemoveKey: null for an absent key; otherwise tombstone the found
slot, decrement count, release the table at count 0, shrink to
max(MIN_CAPACITY, capacity / GROW_FACTOR) when capacity > MIN_CAPACITY and
count < (capacity / GROW_FACTOR) * 75 / 100, and return the removed value
(the value is rooted across the resize, which does not change it). -/
def wrenMapRemoveKey (m : ObjMap) (k : Value) : Option (ObjMap × Value) :=
  match findEntry m k with
  | none => none
  | some none => some (m, .vNull)
  | some (some s) =>
    match m.entries.get? s with
    | none => none
    | some e =>
      let entries := m.entries.set s tombstoneEntry
      let count := m.count - 1
      if count = 0 then
        some (wrenMapClear ⟨m.capacity, count, entries⟩, e.value)
      else if 16 < m.capacity ∧ count < m.capacity / 2 * 75 / 100 then
        match resizeMap ⟨m.capacity, count, entries⟩
            (if m.capacity / 2 < 16 then 16 else m.capacity / 2) with
        | none => none
        | some m2 => some (m2, e.value)
      else some (⟨m.capacity, count, entries⟩, e.value)

/-! ### Map operation sequences and abstraction -/

inductive MapOp where
  | setOp (k v : Value)
  | removeOp (k : Value)
  | clearOp
deriving DecidableEq

def runOp (m : ObjMap) : MapOp → Option ObjMap
  | .setOp k v => wrenMapSet m k v
  | .removeOp k => (wrenMapRemoveKey m k).map Prod.fst
  | .clearOp => some (wrenMapClear m)

def runOps (m : ObjMap) (ops : List MapOp) : Option ObjMap :=
  ops.foldl (fun acc op => acc.bind (fun mm => runOp mm op)) (some m)

/-- A key is well-behaved for map reasoning when it is not the undefined
sentinel (never visible to user code), is wrenValuesEqual to itself (rules
out NaN numbers and NaN range endpoints), and is the only value
wrenValuesEqual to it (rules out +0.0/−0.0, whose two bit patterns are
equal but hash differently).  All other hashable values qualify. -/
def GoodKey (k : Value) : Prop :=
  isUndefinedV k = false ∧ wrenValuesEqual k k = true ∧
  ∀ k2, wrenValuesEqual k k2 = true → k2 = k

def opGood : MapOp → Prop
  | .setOp k _ => GoodKey k
  | .removeOp k => GoodKey k
  | .clearOp => True

/-- The specification-level set of live keys after a sequence of
operations: distinct keys set and not subsequently removed. -/
def specLiveStep (ks : List Value) : MapOp → List Value
  | .setOp k _ => if k ∈ ks then ks else k :: ks
  | .removeOp k => ks.erase k
  | .clearOp => []

def specLive (ops : List MapOp) : List Value := ops.foldl specLiveStep []

/-- The quiet-NaN double bit pattern 0x7ff8000000000000 (exponent all
ones, nonzero mantissa): a number that is not wrenValuesEqual to itself. -/
def nanBits : Nat := 0x7ff8000000000000

/-- An operation sequence on a fresh map that ends with all 16 slots of
the capacity-16 table holding live entries or tombstones: each
remove/re-add round moves the second key to a fresh slot (addEntry never
reuses a tombstone), so after 14 rounds no truly-empty slot remains. -/
def starveOps : List MapOp :=
  [MapOp.setOp (Value.vFiber 0) Value.vTrue,
   MapOp.setOp (Value.vFiber 1) Value.vTrue] ++
  (List.replicate 14 [MapOp.removeOp (Value.vFiber 1),
    MapOp.setOp (Value.vFiber 1) Value.vTrue]).flatten ++
  [MapOp.removeOp (Value.vFiber 0)]

/-- The keys held in occupied slots. -/
def occKeys (entries : List MapEntry) : List Value :=
  (entries.filter isOccupiedE).map MapEntry.key

def probeIdx (capacity h j : Nat) : Nat := (h + j) % capacity

def probeDist (capacity h s : Nat) : Nat := (s + capacity - h) % capacity

/-- Probe-path invariant: for every occupied slot, no truly-empty slot sits
on the probe path from its hash bucket to it (tombstones keep this true
across removals, which is their purpose). -/
def PathOk (entries : List MapEntry) (capacity : Nat) : Prop :=
  ∀ s e, entries.get? s = some e → isOccupiedE e = true →
    ∀ j, j < probeDist capacity (hashValue e.key % capacity) s →
      isEmptyE (entries.getD
        (probeIdx capacity (hashValue e.key % capacity) j) emptyEntry) = false

def goodStored (entries : List MapEntry) : Prop :=
  ∀ kk ∈ occKeys entries, GoodKey kk

/-- The full invariant of maps built by good-key operation sequences. -/
def MapWf (m : ObjMap) : Prop :=
  m.entries.length = m.capacity ∧
  (m.capacity = 0 ∨ ∃ n, m.capacity = 16 * 2 ^ n) ∧
  m.count ≤ m.capacity * 75 / 100 ∧
  m.count = (occKeys m.entries).length ∧
  (occKeys m.entries).Nodup ∧
  goodStored m.entries ∧
  PathOk m.entries m.capacity

/-- The safety invariant that holds for arbitrary (even ill-behaved) key
sequences: table length, capacity shape, the 75% load bound, and that the
occupied-slot count never exceeds the stored count. -/
def MapSafe (m : ObjMap) : Prop :=
  m.entries.length = m.capacity ∧
  (m.capacity = 0 ∨ ∃ n, m.capacity = 16 * 2 ^ n) ∧
  m.count ≤ m.capacity * 75 / 100 ∧
  (occKeys m.entries).length ≤ m.count

/-! ### Theorems about UTF-8 -/

theorem shiftRight_and_distrib (a b k : Nat) :
    (a &&& b) >>> k = (a >>> k) &&& (b >>> k) := by
  apply Nat.eq_of_testBit_eq
  intro i
  simp [Nat.testBit_shiftRight, Nat.testBit_and]

theorem lor_small_eq_add (a b k : Nat) (h : b < 2 ^ k) :
    (a <<< k) ||| b = a * 2 ^ k + b := by
  rw [Nat.shiftLeft_eq, Nat.mul_comm a (2 ^ k), ← Nat.mul_add_lt_is_or h a]

theorem byte2_lead_facts : ∀ u, u < 32 →
    ¬(0xc0 ||| u ≤ 0x7f) ∧ (0xc0 ||| u) &&& 0xe0 = 0xc0 ∧
    (0xc0 ||| u) &&& 0x1f = u := by decide

theorem byte3_lead_facts : ∀ u, u < 16 →
    ¬(0xe0 ||| u ≤ 0x7f) ∧ (0xe0 ||| u) &&& 0xe0 ≠ 0xc0 ∧
    (0xe0 ||| u) &&& 0xf0 = 0xe0 ∧ (0xe0 ||| u) &&& 0x0f = u := by decide

theorem byte4_lead_facts : ∀ u, u < 8 →
    ¬(0xf0 ||| u ≤ 0x7f) ∧ (0xf0 ||| u) &&& 0xe0 ≠ 0xc0 ∧
    (0xf0 ||| u) &&& 0xf0 ≠ 0xe0 ∧ (0xf0 ||| u) &&& 0xf8 = 0xf0 ∧
    (0xf0 ||| u) &&& 0x07 = u := by decide

theorem cont_byte_facts : ∀ v, v < 64 →
    (0x80 ||| v) &&& 0xc0 = 0x80 ∧ (0x80 ||| v) &&& 0x3f = v := by decide

theorem and_3f_eq_mod (c : Nat) : c &&& 0x3f = c % 64 :=
  Nat.and_pow_two_sub_one_eq_mod c 6

theorem and_7c0_shift (c : Nat) : (c &&& 0x7c0) >>> 6 = c / 64 % 32 := by
  rw [shiftRight_and_distrib, (by decide : (0x7c0 : Nat) >>> 6 = 31),
    Nat.shiftRight_eq_div_pow]
  have h := Nat.and_pow_two_sub_one_eq_mod (c / 2 ^ 6) 5
  norm_num at h ⊢
  exact h

theorem and_fc0_shift (c : Nat) : (c &&& 0xfc0) >>> 6 = c / 64 % 64 := by
  rw [shiftRight_and_distrib, (by decide : (0xfc0 : Nat) >>> 6 = 63),
    Nat.shiftRight_eq_div_pow]
  have h := Nat.and_pow_two_sub_one_eq_mod (c / 2 ^ 6) 6
  norm_num at h ⊢
  exact h

theorem and_f000_shift (c : Nat) : (c &&& 0xf000) >>> 12 = c / 4096 % 16 := by
  rw [shiftRight_and_distrib, (by decide : (0xf000 : Nat) >>> 12 = 15),
    Nat.shiftRight_eq_div_pow]
  have h := Nat.and_pow_two_sub_one_eq_mod (c / 2 ^ 12) 4
  norm_num at h ⊢
  exact h

theorem and_3f000_shift (c : Nat) : (c &&& 0x3f000) >>> 12 = c / 4096 % 64 := by
  rw [shiftRight_and_distrib, (by decide : (0x3f000 : Nat) >>> 12 = 63),
    Nat.shiftRight_eq_div_pow]
  have h := Nat.and_pow_two_sub_one_eq_mod (c / 2 ^ 12) 6
  norm_num at h ⊢
  exact h

theorem and_1c0000_shift (c : Nat) :
    (c &&& 0x1c0000) >>> 18 = c / 262144 % 8 := by
  rw [shiftRight_and_distrib, (by decide : (0x1c0000 : Nat) >>> 18 = 7),
    Nat.shiftRight_eq_div_pow]
  have h := Nat.and_pow_two_sub_one_eq_mod (c / 2 ^ 18) 3
  norm_num at h ⊢
  exact h

/-- C2: encode/decode round trip, and the encoder writes exactly
wrenUtf8NumBytes bytes, for every code point up to 0x10FFFF. -/
theorem utf8_roundtrip (c : Nat) (hc : c ≤ 0x10ffff) :
    wrenUtf8Decode (wrenUtf8Encode c) (wrenUtf8Encode c).length = Int.ofNat c ∧
    (wrenUtf8Encode c).length = wrenUtf8NumBytes c := by
  by_cases h1 : c ≤ 0x7f
  · have hm : c &&& 0x7f = c := by
      rw [Nat.and_pow_two_sub_one_eq_mod c 7]
      exact Nat.mod_eq_of_lt (by omega)
    constructor
    · simp only [wrenUtf8Encode, if_pos h1, wrenUtf8Decode, hm]
      simp [List.getD, h1]
    · simp [wrenUtf8Encode, wrenUtf8NumBytes, if_pos h1]
  · by_cases h2 : c ≤ 0x7ff
    · have hu : (c &&& 0x7c0) >>> 6 = c / 64 := by
        rw [and_7c0_shift]; exact Nat.mod_eq_of_lt (by omega)
      have hulty : c / 64 < 32 := by omega
      have hv : c &&& 0x3f = c % 64 := and_3f_eq_mod c
      have hvlt : c % 64 < 64 := Nat.mod_lt _ (by norm_num)
      obtain ⟨hb0a, hb0b, hb0c⟩ := byte2_lead_facts _ hulty
      obtain ⟨hb1a, hb1b⟩ := cont_byte_facts _ hvlt
      have henc : wrenUtf8Encode c =
          [0xc0 ||| (c / 64), 0x80 ||| (c % 64)] := by
        simp only [wrenUtf8Encode, if_neg h1, if_pos h2, hu, hv]
      refine ⟨?_, ?_⟩
      · rw [henc]
        simp only [wrenUtf8Decode, List.length_cons, List.length_nil, List.getD]
        norm_num [hb0a, hb0b, hb0c]
        simp only [utf8DecodeLoop, List.getD]
        norm_num [hb1a, hb1b]
        rw [lor_small_eq_add _ _ 6 (by omega : c % 64 < 2 ^ 6)]
        omega
      · rw [henc]; simp [wrenUtf8NumBytes, h1, h2]
    · by_cases h3 : c ≤ 0xffff
      · have hu : (c &&& 0xf000) >>> 12 = c / 4096 := by
          rw [and_f000_shift]; exact Nat.mod_eq_of_lt (by omega)
        have hulty : c / 4096 < 16 := by omega
        have hm : (c &&& 0xfc0) >>> 6 = c / 64 % 64 := and_fc0_shift c
        have hmlt : c / 64 % 64 < 64 := Nat.mod_lt _ (by norm_num)
        have hv : c &&& 0x3f = c % 64 := and_3f_eq_mod c
        have hvlt : c % 64 < 64 := Nat.mod_lt _ (by norm_num)
        obtain ⟨hb0a, hb0b, hb0c, hb0d⟩ := byte3_lead_facts _ hulty
        obtain ⟨hb1a, hb1b⟩ := cont_byte_facts _ hmlt
        obtain ⟨hb2a, hb2b⟩ := cont_byte_facts _ hvlt
        have henc : wrenUtf8Encode c =
            [0xe0 ||| (c / 4096), 0x80 ||| (c / 64 % 64), 0x80 ||| (c % 64)] := by
          simp only [wrenUtf8Encode, if_neg h1, if_neg h2, if_pos h3, hu, hm, hv]
        refine ⟨?_, ?_⟩
        · rw [henc]
          simp only [wrenUtf8Decode, List.length_cons, List.length_nil, List.getD]
          norm_num [hb0a, hb0b, hb0c, hb0d]
          simp only [utf8DecodeLoop, List.getD]
          norm_num [hb1a, hb1b, hb2a, hb2b]
          rw [lor_small_eq_add _ _ 6 (by omega : c / 64 % 64 < 2 ^ 6),
            lor_small_eq_add _ _ 6 (by omega : c % 64 < 2 ^ 6)]
          omega
        · rw [henc]; simp [wrenUtf8NumBytes, h1, h2, h3]
      · have hu : (c &&& 0x1c0000) >>> 18 = c / 262144 := by
          rw [and_1c0000_shift]; exact Nat.mod_eq_of_lt (by omega)
        have hulty : c / 262144 < 8 := by omega
        have ha : (c &&& 0x3f000) >>> 12 = c / 4096 % 64 := and_3f000_shift c
        have halt : c / 4096 % 64 < 64 := Nat.mod_lt _ (by norm_num)
        have hm : (c &&& 0xfc0) >>> 6 = c / 64 % 64 := and_fc0_shift c
        have hmlt : c / 64 % 64 < 64 := Nat.mod_lt _ (by norm_num)
        have hv : c &&& 0x3f = c % 64 := and_3f_eq_mod c
        have hvlt : c % 64 < 64 := Nat.mod_lt _ (by norm_num)
        obtain ⟨hb0a, hb0b, hb0c, hb0d, hb0e⟩ := byte4_lead_facts _ hulty
        obtain ⟨hb1a, hb1b⟩ := cont_byte_facts _ halt
        obtain ⟨hb2a, hb2b⟩ := cont_byte_facts _ hmlt
        obtain ⟨hb3a, hb3b⟩ := cont_byte_facts _ hvlt
        have henc : wrenUtf8Encode c =
            [0xf0 ||| (c / 262144), 0x80 ||| (c / 4096 % 64),
             0x80 ||| (c / 64 % 64), 0x80 ||| (c % 64)] := by
          simp only [wrenUtf8Encode, if_neg h1, if_neg h2, if_neg h3,
            if_pos hc, hu, ha, hm, hv]
        refine ⟨?_, ?_⟩
        · rw [henc]
          simp only [wrenUtf8Decode, List.length_cons, List.length_nil, List.getD]
          norm_num [hb0a, hb0b, hb0c, hb0d, hb0e]
          simp only [utf8DecodeLoop, List.getD]
          norm_num [hb1a, hb1b, hb2a, hb2b, hb3a, hb3b]
          rw [lor_small_eq_add _ _ 6 (by omega : c / 4096 % 64 < 2 ^ 6),
            lor_small_eq_add _ _ 6 (by omega : c / 64 % 64 < 2 ^ 6),
            lor_small_eq_add _ _ 6 (by omega : c % 64 < 2 ^ 6)]
          omega
        · rw [henc]; simp [wrenUtf8NumBytes, h1, h2, h3, hc]

theorem utf8DecodeLoop_congr (bytes1 bytes2 : List Nat) :
    ∀ r pos value,
      (∀ i, pos ≤ i → i < pos + r → bytes1.getD i 0 = bytes2.getD i 0) →
      utf8DecodeLoop bytes1 pos value r = utf8DecodeLoop bytes2 pos value r := by
  intro r
  induction r with
  | zero => intro pos value _; rfl
  | succ n ih =>
    intro pos value h
    have hb : bytes1.getD pos 0 = bytes2.getD pos 0 :=
      h pos (Nat.le_refl _) (by omega)
    simp only [utf8DecodeLoop, hb]
    split
    all_goals first
      | rfl
      | exact ih (pos + 1) _ (fun i h1 h2 => h i (by omega) (by omega))

theorem getD_eq_of_take_eq {bytes1 bytes2 : List Nat} {len : Nat}
    (h : bytes1.take len = bytes2.take len) (i : Nat) (hi : i < len) :
    bytes1.getD i 0 = bytes2.getD i 0 := by
  have h1 : bytes1.getD i 0 = (bytes1.take len).getD i 0 := by
    simp [List.getD, List.getElem?_take_of_lt hi]
  have h2 : bytes2.getD i 0 = (bytes2.take len).getD i 0 := by
    simp [List.getD, List.getElem?_take_of_lt hi]
  rw [h1, h2, h]

/-- C10: wrenUtf8Decode with remainingLen ≥ 1 depends only on the first
remainingLen bytes of the buffer, and whenever the lead byte announces more
continuation bytes than remainingLen provides it returns -1. -/
theorem utf8Decode_reads_in_bounds :
    (∀ (bytes1 bytes2 : List Nat) (len : Nat), 1 ≤ len → len < 4294967296 →
      bytes1.take len = bytes2.take len →
      wrenUtf8Decode bytes1 len = wrenUtf8Decode bytes2 len) ∧
    (∀ (bytes : List Nat) (len : Nat), 1 ≤ len → len < 4294967296 →
      ¬(bytes.getD 0 0 ≤ 0x7f) → utf8ContBytes (bytes.getD 0 0) > len - 1 →
      wrenUtf8Decode bytes len = -1) := by
  constructor
  · intro bytes1 bytes2 len hlen hlen32 htake
    have hsub : (len % 4294967296 + 4294967295) % 4294967296 = len - 1 := by
      omega
    have hb0 : bytes1.getD 0 0 = bytes2.getD 0 0 :=
      getD_eq_of_take_eq htake 0 (by omega)
    simp only [wrenUtf8Decode, hsub, hb0]
    set b0 := bytes2.getD 0 0 with hb0def
    by_cases h1 : b0 ≤ 0x7f
    · simp [h1]
    · simp only [if_neg h1]
      by_cases h2 : b0 &&& 0xe0 = 0xc0
      · simp only [if_pos h2]
        by_cases hl : 1 > len - 1
        · simp [hl]
        · simp only [if_neg hl]
          exact utf8DecodeLoop_congr bytes1 bytes2 1 1 _
            (fun i ha hb => getD_eq_of_take_eq htake i (by omega))
      · simp only [if_neg h2]
        by_cases h3 : b0 &&& 0xf0 = 0xe0
        · simp only [if_pos h3]
          by_cases hl : 2 > len - 1
          · simp [hl]
          · simp only [if_neg hl]
            exact utf8DecodeLoop_congr bytes1 bytes2 2 1 _
              (fun i ha hb => getD_eq_of_take_eq htake i (by omega))
        · simp only [if_neg h3]
          by_cases h4 : b0 &&& 0xf8 = 0xf0
          · simp only [if_pos h4]
            by_cases hl : 3 > len - 1
            · simp [hl]
            · simp only [if_neg hl]
              exact utf8DecodeLoop_congr bytes1 bytes2 3 1 _
                (fun i ha hb => getD_eq_of_take_eq htake i (by omega))
          · simp [h4]
  · intro bytes len hlen hlen32 h7f hcont
    have hsub : (len % 4294967296 + 4294967295) % 4294967296 = len - 1 := by
      omega
    simp only [utf8ContBytes] at hcont
    by_cases h2 : bytes.getD 0 0 &&& 0xe0 = 0xc0
    · rw [if_pos h2] at hcont
      simp only [wrenUtf8Decode, hsub, if_neg h7f, if_pos h2]
      rw [if_pos (by omega : 1 > len - 1)]
    · rw [if_neg h2] at hcont
      by_cases h3 : bytes.getD 0 0 &&& 0xf0 = 0xe0
      · rw [if_pos h3] at hcont
        simp only [wrenUtf8Decode, hsub, if_neg h7f, if_neg h2, if_pos h3]
        rw [if_pos (by omega : 2 > len - 1)]
      · rw [if_neg h3] at hcont
        by_cases h4 : bytes.getD 0 0 &&& 0xf8 = 0xf0
        · rw [if_pos h4] at hcont
          simp only [wrenUtf8Decode, hsub, if_neg h7f, if_neg h2, if_neg h3,
            if_pos h4]
          rw [if_pos (by omega : 3 > len - 1)]
        · rw [if_neg h4] at hcont
          omega

theorem utf8Decode_reads_in_bounds_witness :
    wrenUtf8Decode [0xc2, 0xa2, 7, 7] 2 = wrenUtf8Decode [0xc2, 0xa2, 9] 2 ∧
    wrenUtf8Decode [0xe2, 0x82] 2 = -1 := by
  constructor
  · exact utf8Decode_reads_in_bounds.1 [0xc2, 0xa2, 7, 7] [0xc2, 0xa2, 9] 2
      (by decide) (by decide) (by decide)
  · exact utf8Decode_reads_in_bounds.2 [0xe2, 0x82] 2
      (by decide) (by decide) (by decide) (by decide)

theorem utf8_roundtrip_witness :
    (0x20ac ≤ 0x10ffff ∧
      wrenUtf8Decode (wrenUtf8Encode 0x20ac) (wrenUtf8Encode 0x20ac).length =
        Int.ofNat 0x20ac ∧
      (wrenUtf8Encode 0x20ac).length = wrenUtf8NumBytes 0x20ac) :=
  ⟨by decide, utf8_roundtrip 0x20ac (by decide)⟩

/-! ### Theorems about wrenStringFind (C3, C4) -/

theorem getD_set_self_of_lt {l : List Nat} {i : Nat} (h : i < l.length)
    (v : Nat) : (l.set i v).getD i 0 = v := by
  simp [List.getD, List.getElem?_set_self h]

theorem getD_set_ne {l : List Nat} {i j : Nat} (h : i ≠ j) (v : Nat) :
    (l.set i v).getD j 0 = l.getD j 0 := by
  simp [List.getD, List.getElem?_set_ne h]

theorem getD_replicate_of_lt {n m v : Nat} (h : m < n) :
    (List.replicate n v).getD m 0 = v := by
  simp [List.getD, List.getElem?_replicate_of_lt h]

theorem getElem?_eq_some_getD {l : List Nat} {i : Nat} (h : i < l.length) :
    l[i]? = some (l.getD i 0) := by
  simp [List.getD, List.getElem?_eq_getElem h]

theorem buildShiftTable_facts (needle tbl : List Nat)
    (hlen : 1 ≤ needle.length) (h : buildShiftTable needle = some tbl) :
    tbl.length = shiftTableSize ∧
    (∀ j, j < shiftTableSize →
      1 ≤ tbl.getD j 0 ∧ tbl.getD j 0 ≤ needle.length) ∧
    (∀ p, p < needle.length - 1 →
      needle.getD p 0 < shiftTableSize ∧
      tbl.getD (needle.getD p 0) 0 ≤ needle.length - 1 - p) := by
  simp only [buildShiftTable] at h
  have key : ∀ k, k ≤ needle.length - 1 → ∀ t,
      (List.range k).foldl (shiftStep needle (needle.length - 1))
        (some (List.replicate shiftTableSize needle.length)) = some t →
      t.length = shiftTableSize ∧
      (∀ j, j < shiftTableSize → 1 ≤ t.getD j 0 ∧ t.getD j 0 ≤ needle.length) ∧
      (∀ p, p < k → needle.getD p 0 < shiftTableSize ∧
        t.getD (needle.getD p 0) 0 ≤ (needle.length - 1) - p) := by
    intro k
    induction k with
    | zero =>
      intro _ t ht
      simp only [List.range_zero, List.foldl_nil, Option.some.injEq] at ht
      subst ht
      refine ⟨List.length_replicate .., ?_, by omega⟩
      intro j hj
      rw [getD_replicate_of_lt hj]
      omega
    | succ n ih =>
      intro hk t ht
      rw [List.range_succ, List.foldl_append, List.foldl_cons,
        List.foldl_nil] at ht
      cases hprev : (List.range n).foldl (shiftStep needle (needle.length - 1))
          (some (List.replicate shiftTableSize needle.length)) with
      | none => rw [hprev] at ht; simp [shiftStep] at ht
      | some t0 =>
        rw [hprev] at ht
        obtain ⟨hL, hE, hP⟩ := ih (by omega) t0 hprev
        simp only [shiftStep] at ht
        by_cases hc : needle.getD n 0 < shiftTableSize
        · rw [if_pos hc] at ht
          obtain rfl := Option.some.inj ht
          refine ⟨by simp [hL], ?_, ?_⟩
          · intro j hj
            by_cases hjc : needle.getD n 0 = j
            · rw [← hjc, getD_set_self_of_lt (by omega) _]
              omega
            · rw [getD_set_ne hjc]
              exact hE j hj
          · intro p hp
            by_cases hpn : p = n
            · subst hpn
              refine ⟨hc, ?_⟩
              rw [getD_set_self_of_lt (by omega) _]
            · have hp' : p < n := by omega
              obtain ⟨hb, hv⟩ := hP p hp'
              refine ⟨hb, ?_⟩
              by_cases hbc : needle.getD n 0 = needle.getD p 0
              · rw [← hbc, getD_set_self_of_lt (by omega) _]
                omega
              · rw [getD_set_ne hbc]
                omega
        · rw [if_neg hc] at ht
          exact absurd ht (by simp)
  obtain ⟨hL, hE, hP⟩ := key (needle.length - 1) (Nat.le_refl _) tbl h
  exact ⟨hL, hE, fun p hp => hP p (by omega)⟩

theorem matchAt_getD {H N : List Nat} {j : Nat} (h : matchAt H N j)
    {p : Nat} (hp : p < N.length) : H.getD (j + p) 0 = N.getD p 0 := by
  obtain ⟨hb, hw⟩ := h
  have h1 : N[p]? = ((H.drop j).take N.length)[p]? := by rw [hw]
  rw [List.getElem?_take_of_lt hp, List.getElem?_drop] at h1
  simp only [List.getD, List.get?_eq_getElem?]
  rw [h1]

theorem matchAt_le {H N : List Nat} {j : Nat} (h : matchAt H N j)
    (_hN : 1 ≤ N.length) : j ≤ H.length - N.length := by
  obtain ⟨hb, _⟩ := h
  omega

theorem matchAt_iff_parts (H N : List Nat) (ix : Nat) (hN : 1 ≤ N.length)
    (hb : ix + N.length ≤ H.length) :
    matchAt H N ix ↔
      ((H.drop ix).take (N.length - 1) = N.take (N.length - 1) ∧
       H.getD (ix + (N.length - 1)) 0 = N.getD (N.length - 1) 0) := by
  constructor
  · intro h
    refine ⟨?_, matchAt_getD h (by omega)⟩
    obtain ⟨_, hw⟩ := h
    have hwd : N.take (N.length - 1) =
        ((H.drop ix).take N.length).take (N.length - 1) := by rw [hw]
    rw [hwd, List.take_take]
    congr 1
    omega
  · rintro ⟨hpre, hlast⟩
    refine ⟨hb, ?_⟩
    obtain ⟨nE, hnE⟩ : ∃ nE, N.length = nE + 1 := ⟨N.length - 1, by omega⟩
    have hnE1 : N.length - 1 = nE := by omega
    rw [hnE1] at hpre hlast
    have hback : N.take N.length = N := List.take_length ..
    rw [hnE, List.take_succ] at hback
    rw [hnE, List.take_succ]
    have h1 : (H.drop ix)[nE]? = some (N.getD nE 0) := by
      rw [List.getElem?_drop, getElem?_eq_some_getD (by omega), hlast]
    have h2 : N[nE]? = some (N.getD nE 0) :=
      getElem?_eq_some_getD (by omega)
    rw [h1, hpre, ← h2, hback]

theorem get?_eq_getD {l : List Nat} {i v : Nat} (h : l.get? i = some v) :
    l.getD i 0 = v ∧ i < l.length := by
  rw [List.get?_eq_getElem?] at h
  refine ⟨?_, (List.getElem?_eq_some_iff.mp h).1⟩
  simp [List.getD, List.get?_eq_getElem?, h]

theorem shift_gap (H N tbl : List Nat) (hN : 1 ≤ N.length)
    (hlenT : tbl.length = shiftTableSize)
    (hfax : ∀ p, p < N.length - 1 →
      N.getD p 0 < shiftTableSize ∧
      tbl.getD (N.getD p 0) 0 ≤ N.length - 1 - p)
    (hmax : ∀ j, j < shiftTableSize → tbl.getD j 0 ≤ N.length)
    (index s : Nat)
    (hg : tbl.get? (H.getD (index + (N.length - 1)) 0) = some s)
    (hmiss : ¬ matchAt H N index) :
    ∀ d, d < s → ¬ matchAt H N (index + d) := by
  intro d hd hm
  obtain ⟨hsv, hclt⟩ := get?_eq_getD hg
  set c := H.getD (index + (N.length - 1)) 0 with hc
  have hsle : s ≤ N.length := hsv ▸ hmax c (by omega)
  rcases Nat.eq_zero_or_pos d with hd0 | hd1
  · subst hd0
    simp at hm
    exact hmiss hm
  · -- 1 ≤ d < s ≤ N.length, so the needle byte at N.length - 1 - d is c
    have hdle : d ≤ N.length - 1 := by omega
    have hp : N.length - 1 - d < N.length - 1 := by omega
    have hbyte : N.getD (N.length - 1 - d) 0 = c := by
      have := matchAt_getD hm (p := N.length - 1 - d) (by omega)
      rw [← this, hc]
      congr 1
      omega
    obtain ⟨_, hble⟩ := hfax (N.length - 1 - d) hp
    rw [hbyte, hsv] at hble
    omega

theorem stringFindLoop_sound
    (H N tbl : List Nat) (hN : 1 ≤ N.length) (hNH : N.length ≤ H.length)
    (hH : H.length < 4294967295)
    (hlenT : tbl.length = shiftTableSize)
    (hEnt : ∀ j, j < shiftTableSize →
      1 ≤ tbl.getD j 0 ∧ tbl.getD j 0 ≤ N.length)
    (hfax : ∀ p, p < N.length - 1 →
      N.getD p 0 < shiftTableSize ∧
      tbl.getD (N.getD p 0) 0 ≤ N.length - 1 - p) :
    ∀ fuel index res,
      stringFindLoop H N tbl (N.length - 1) (N.getD (N.length - 1) 0)
        (H.length - N.length) fuel index = some res →
      (res = 4294967295 → ∀ j, index ≤ j → ¬ matchAt H N j) ∧
      (res ≠ 4294967295 →
        index ≤ res ∧ matchAt H N res ∧
        ∀ j, index ≤ j → j < res → ¬ matchAt H N j) := by
  intro fuel
  induction fuel with
  | zero => intro index res h; simp [stringFindLoop] at h
  | succ n ih =>
    intro index res h
    simp only [stringFindLoop] at h
    by_cases h1 : index > H.length - N.length
    · rw [if_pos h1] at h
      have hres : res = 4294967295 := by
        have := Option.some.inj h; omega
      constructor
      · intro _ j hj hm
        have := matchAt_le hm hN
        omega
      · intro hne; exact absurd hres hne
    · rw [if_neg h1] at h
      by_cases h2 : ((N.getD (N.length - 1) 0 ==
            H.getD (index + (N.length - 1)) 0) &&
          ((H.drop index).take (N.length - 1) == N.take (N.length - 1))) = true
      · rw [if_pos h2] at h
        have hres : res = index := (Option.some.inj h).symm
        subst hres
        rw [Bool.and_eq_true, beq_iff_eq, beq_iff_eq] at h2
        have hbnd : res + N.length ≤ H.length := by omega
        have hm : matchAt H N res :=
          (matchAt_iff_parts H N res hN hbnd).mpr ⟨h2.2, h2.1.symm⟩
        constructor
        · intro hclash
          exact absurd hclash (by omega)
        · intro _
          exact ⟨Nat.le_refl _, hm, fun j hj1 hj2 => absurd hj1 (by omega)⟩
      · rw [if_neg h2] at h
        cases hg : tbl.get? (H.getD (index + (N.length - 1)) 0) with
        | none => rw [hg] at h; exact absurd h (by simp)
        | some s =>
          rw [hg] at h
          have ihs := ih (index + s) res h
          obtain ⟨hsv, hclt⟩ := get?_eq_getD hg
          have hs1 : 1 ≤ s := by
            have := (hEnt (H.getD (index + (N.length - 1)) 0) (by omega)).1
            omega
          have hbnd : index + N.length ≤ H.length := by omega
          have hmiss : ¬ matchAt H N index := by
            intro hm
            obtain ⟨hpre, hlast⟩ := (matchAt_iff_parts H N index hN hbnd).mp hm
            apply h2
            rw [Bool.and_eq_true, beq_iff_eq, beq_iff_eq]
            exact ⟨hlast.symm, hpre⟩
          have hgap : ∀ d, d < s → ¬ matchAt H N (index + d) :=
            shift_gap H N tbl hN hlenT hfax
              (fun j hj => (hEnt j hj).2) index s hg hmiss
          constructor
          · intro hres j hj hm
            by_cases hj2 : index + s ≤ j
            · exact ihs.1 hres j hj2 hm
            · have hj' : j = index + (j - index) := by omega
              exact hgap (j - index) (by omega) (hj' ▸ hm)
          · intro hres
            obtain ⟨hle, hm, hmin⟩ := ihs.2 hres
            refine ⟨by omega, hm, ?_⟩
            intro j hj1 hj2
            by_cases hj3 : index + s ≤ j
            · exact hmin j hj3 hj2
            · intro hmm
              have hj' : j = index + (j - index) := by omega
              exact hgap (j - index) (by omega) (hj' ▸ hmm)

/-- C3: wrenStringFind returning an index other than NOT_FOUND locates the
first occurrence of the needle; returning NOT_FOUND (UINT32_MAX) means no
occurrence exists; the empty needle gives 0 and a needle longer than the
haystack gives NOT_FOUND. -/
theorem stringFind_spec :
    (∀ (H N : List Nat) (i : Nat), H.length < 4294967295 →
      wrenStringFind H N = some i → i ≠ 4294967295 →
      matchAt H N i ∧ ∀ j, j < i → ¬ matchAt H N j) ∧
    (∀ H N : List Nat, H.length < 4294967295 →
      wrenStringFind H N = some 4294967295 → ∀ j, ¬ matchAt H N j) ∧
    (∀ H : List Nat, wrenStringFind H [] = some 0) ∧
    (∀ H N : List Nat, N.length > H.length →
      wrenStringFind H N = some 4294967295) := by
  have core : ∀ (H N : List Nat) (res : Nat), H.length < 4294967295 →
      ¬ N.length = 0 → ¬ N.length > H.length →
      wrenStringFind H N = some res →
      (res = 4294967295 → ∀ j, ¬ matchAt H N j) ∧
      (res ≠ 4294967295 →
        matchAt H N res ∧ ∀ j, j < res → ¬ matchAt H N j) := by
    intro H N res hH hNe hNl hfind
    simp only [wrenStringFind, if_neg hNe, if_neg hNl] at hfind
    cases htb : buildShiftTable N with
    | none => rw [htb] at hfind; exact absurd hfind (by simp)
    | some tbl =>
      rw [htb] at hfind
      obtain ⟨hL, hE, hP⟩ := buildShiftTable_facts N tbl (by omega) htb
      have hs := stringFindLoop_sound H N tbl (by omega) (by omega) hH
        hL hE hP ((H.length - N.length) + 2) 0 res hfind
      constructor
      · intro hres j
        exact hs.1 hres j (Nat.zero_le _)
      · intro hres
        obtain ⟨_, hm, hmin⟩ := hs.2 hres
        exact ⟨hm, fun j hj => hmin j (Nat.zero_le _) hj⟩
  refine ⟨?_, ?_, ?_, ?_⟩
  · intro H N i hH hfind hi
    by_cases hNe : N.length = 0
    · have hN0 : N = [] := List.length_eq_zero.mp hNe
      subst hN0
      simp only [wrenStringFind, if_pos rfl] at hfind
      have : i = 0 := by
        have := Option.some.inj hfind; omega
      subst this
      exact ⟨⟨by simp, by simp⟩, fun j hj => absurd hj (by omega)⟩
    · by_cases hNl : N.length > H.length
      · simp only [wrenStringFind, if_neg hNe, if_pos hNl] at hfind
        have := Option.some.inj hfind
        omega
      · exact (core H N i hH hNe hNl hfind).2 hi
  · intro H N hH hfind j
    by_cases hNe : N.length = 0
    · have hN0 : N = [] := List.length_eq_zero.mp hNe
      subst hN0
      simp only [wrenStringFind, if_pos rfl] at hfind
      have := Option.some.inj hfind
      omega
    · by_cases hNl : N.length > H.length
      · intro hm
        obtain ⟨hb, _⟩ := hm
        omega
      · exact (core H N 4294967295 hH hNe hNl hfind).1 rfl j
  · intro H
    simp [wrenStringFind]
  · intro H N hNl
    have hNe : ¬ N.length = 0 := by omega
    simp [wrenStringFind, hNe, hNl]

/-- Witness for C3 at spec scenario S5: "hello world" / "world" is found at
index 6 and not at index 0. -/
theorem stringFind_spec_witness :
    matchAt [104, 101, 108, 108, 111, 32, 119, 111, 114, 108, 100]
      [119, 111, 114, 108, 100] 6 ∧
    ¬ matchAt [104, 101, 108, 108, 111, 32, 119, 111, 114, 108, 100]
      [119, 111, 114, 108, 100] 0 := by
  have h := stringFind_spec.1
    [104, 101, 108, 108, 111, 32, 119, 111, 114, 108, 100]
    [119, 111, 114, 108, 100] 6 (by decide) (by decide) (by decide)
  exact ⟨h.1, h.2 0 (by decide)⟩

/-- C4: the shift table has only 255 entries (uint32_t shift[UINT8_MAX]),
so byte 0xFF accesses index 255 out of bounds: a haystack window ending in
0xFF makes the search read shift[255], and a needle containing 0xFF before
its last byte makes the preprocessing write shift[255].  Both abort the
model (none = undefined behaviour in C). -/
theorem stringFind_shift_table_oob :
    shiftTableSize = 255 ∧
    wrenStringFind [0x61, 0xff] [0x61, 0x62] = none ∧
    wrenStringFind [0x61, 0x62] [0xff, 0x61] = none := by
  refine ⟨rfl, ?_, ?_⟩ <;> decide

/-! ### Theorems about hashing (C8) -/

/-- C8 counterexample: under the NaN-boxing encoding, hashValue XORs the two
32-bit halves of the boxed bits, so the singleton `true` hashes to
0x7ffc0000 XOR tag, never 2, whichever 3-bit tag the encoding assigns. -/
theorem hashValue_nan_boxed_true_ne_two :
    ((List.range 8).all
      (fun t => hashValueNanBoxedPrim (nanBoxSingleton t) != 2)) = true := by
  decide

/-- C8 amended: under the tagged-union encoding hashValue maps true to 2,
false to 0, null to 1, and a number to the XOR of the two 32-bit halves of
its IEEE-754 bit pattern; under the NaN-boxing encoding a number still
hashes to the XOR of the halves of its bit pattern, but the singletons hash
to 0x7ffc0000 XOR tag, which differs from 2, 0 and 1 for every 3-bit tag. -/
theorem hashValue_spec :
    hashValue .vTrue = 2 ∧ hashValue .vFalse = 0 ∧ hashValue .vNull = 1 ∧
    (∀ bits, hashValue (.vNum bits) =
      (bits % 4294967296) ^^^ (bits / 4294967296 % 4294967296)) ∧
    (∀ bits64, hashValueNanBoxedPrim bits64 =
      (bits64 % 4294967296) ^^^ (bits64 / 4294967296 % 4294967296)) ∧
    (∀ tag, tag < 8 →
      hashValueNanBoxedPrim (nanBoxSingleton tag) = 0x7ffc0000 ^^^ tag ∧
      hashValueNanBoxedPrim (nanBoxSingleton tag) ≠ 2 ∧
      hashValueNanBoxedPrim (nanBoxSingleton tag) ≠ 0 ∧
      hashValueNanBoxedPrim (nanBoxSingleton tag) ≠ 1) := by
  refine ⟨rfl, rfl, rfl, fun bits => rfl, fun bits64 => rfl, ?_⟩
  decide

theorem hashValue_spec_witness :
    hashValueNanBoxedPrim (nanBoxSingleton 3) = 0x7ffc0000 ^^^ 3 ∧
    hashValueNanBoxedPrim (nanBoxSingleton 3) ≠ 2 :=
  ⟨(hashValue_spec.2.2.2.2.2 3 (by decide)).1,
   (hashValue_spec.2.2.2.2.2 3 (by decide)).2.1⟩

/-! ### Theorems about wrenListRemoveAt (C6) -/

/-- C6 counterexample: a list with capacity 16 and count 9.  After removal
the count is 8 ≤ 16 / 2, so the claim says the buffer is halved, but the
code compares the pre-decrement count (9 > 8) and does not shrink. -/
theorem listRemoveAt_no_shrink_at_half :
    (wrenListRemoveAt ⟨16, 9, List.replicate 9 .vNull⟩ 0).1.capacity = 16 ∧
    9 - 1 ≤ 16 / 2 ∧ (16 : Nat) / 2 = 8 := by
  decide

/-- C6 amended: wrenListRemoveAt halves the capacity exactly when the
pre-removal count is at most capacity / 2, i.e. exactly when the
post-removal count is strictly below capacity / 2. -/
theorem listRemoveAt_shrink_iff (l : ObjList) (index : Nat)
    (hidx : index < l.count) (hcnt : l.count ≤ l.capacity) :
    ((wrenListRemoveAt l index).1.capacity = l.capacity / 2 ↔
      l.count - 1 < l.capacity / 2) ∧
    (¬ l.count - 1 < l.capacity / 2 →
      (wrenListRemoveAt l index).1.capacity = l.capacity) := by
  have hcap : 1 ≤ l.capacity := by omega
  simp only [wrenListRemoveAt]
  by_cases h : l.capacity / 2 ≥ l.count
  · simp only [if_pos h]
    constructor
    · constructor
      · intro _; omega
      · intro _; trivial
    · intro hpost; omega
  · simp only [if_neg h]
    constructor
    · constructor
      · intro heq; omega
      · intro hpost; omega
    · intro _; trivial

theorem listRemoveAt_shrink_iff_witness :
    ((wrenListRemoveAt ⟨16, 8, List.replicate 8 .vNull⟩ 0).1.capacity =
        16 / 2 ↔ 8 - 1 < 16 / 2) ∧
    (¬ (8 : Nat) - 1 < 16 / 2 →
      (wrenListRemoveAt ⟨16, 8, List.replicate 8 .vNull⟩ 0).1.capacity = 16) :=
  listRemoveAt_shrink_iff ⟨16, 8, List.replicate 8 .vNull⟩ 0
    (by decide) (by decide)

/-! ### Theorems about class construction (C7) -/

theorem bindMethod_numFields (c : ObjClass) (symbol : Nat) (m : Method) :
    (wrenBindMethod c symbol m).numFields = c.numFields := rfl

theorem bindMethod_name (c : ObjClass) (symbol : Nat) (m : Method) :
    (wrenBindMethod c symbol m).name = c.name := rfl

theorem bindMethod_fresh_step (c : ObjClass) (k : Nat) (m : Method)
    (h : c.methods.length = k) :
    (wrenBindMethod c k m).methods = c.methods ++ [m] := by
  simp only [wrenBindMethod, h, ge_iff_le, Nat.le_refl, if_pos,
    Nat.sub_self]
  rw [List.set_append_right _ _ (by omega)]
  simp [h]

theorem bindSuperclass_fresh (base superclass : ObjClass)
    (hempty : base.methods = []) :
    (wrenBindSuperclass base superclass).numFields =
      base.numFields + superclass.numFields ∧
    (wrenBindSuperclass base superclass).methods = superclass.methods := by
  simp only [wrenBindSuperclass]
  set f := fun (c : ObjClass) (i : Nat) =>
    wrenBindMethod c i (superclass.methods.getD i methodNone) with hf
  have key : ∀ k, k ≤ superclass.methods.length →
      ((List.range k).foldl f
        { base with numFields := base.numFields + superclass.numFields }) =
      { numFields := base.numFields + superclass.numFields,
        name := base.name,
        methods := superclass.methods.take k } := by
    intro k
    induction k with
    | zero =>
      intro _
      simp [hempty]
    | succ n ih =>
      intro hk
      rw [List.range_succ, List.foldl_append]
      rw [ih (by omega)]
      simp only [List.foldl_cons, List.foldl_nil, hf]
      have hlen : (superclass.methods.take n).length = n :=
        List.length_take_of_le (by omega)
      have hstep := bindMethod_fresh_step
        { numFields := base.numFields + superclass.numFields,
          name := base.name, methods := superclass.methods.take n }
        n (superclass.methods.getD n methodNone) hlen
      have hget : superclass.methods.getD n methodNone =
          superclass.methods.get ⟨n, by omega⟩ := by
        simp [List.getD, List.getElem?_eq_getElem (by omega : n < superclass.methods.length)]
      have htake : superclass.methods.take (n + 1) =
          superclass.methods.take n ++ [superclass.methods.get ⟨n, by omega⟩] := by
        rw [List.take_succ]
        simp [List.getElem?_eq_getElem (by omega : n < superclass.methods.length)]
      cases hb : wrenBindMethod
          { numFields := base.numFields + superclass.numFields,
            name := base.name, methods := superclass.methods.take n }
          n (superclass.methods.getD n methodNone)
      simp only [hb] at hstep ⊢
      have h1 := bindMethod_numFields
        { numFields := base.numFields + superclass.numFields,
          name := base.name, methods := superclass.methods.take n }
        n (superclass.methods.getD n methodNone)
      have h2 := bindMethod_name
        { numFields := base.numFields + superclass.numFields,
          name := base.name, methods := superclass.methods.take n }
        n (superclass.methods.getD n methodNone)
      rw [hb] at h1 h2
      simp only at h1 h2
      rw [htake, ← hget, ← hstep]
      simp [h1, h2]
  have hfin := key superclass.methods.length (Nat.le_refl _)
  rw [List.take_length] at hfin
  rw [hfin]
  constructor <;> rfl

/-- C7: wrenNewClass(classClass, superclass, numFields, name) produces a
class whose numFields is numFields + superclass.numFields, and whose method
table holds, at every symbol index below the superclass's method count, the
same method the superclass holds there. -/
theorem newClass_spec (classClass superclass : ObjClass) (numFields : Nat)
    (name : List Nat) (i : Nat) (_hi : i < superclass.methods.length) :
    (wrenNewClass classClass superclass numFields name).1.numFields =
      numFields + superclass.numFields ∧
    (wrenNewClass classClass superclass numFields name).1.methods.get? i =
      superclass.methods.get? i := by
  have h := bindSuperclass_fresh (wrenNewSingleClass numFields name)
    superclass rfl
  constructor
  · exact h.1
  · show (wrenBindSuperclass (wrenNewSingleClass numFields name)
        superclass).methods.get? i = superclass.methods.get? i
    rw [h.2]

/-- Witness instantiating C7 at spec scenario S4: class A with 2 fields and
a method at symbol 7, subclass B with 1 own field. -/
theorem newClass_spec_witness :
    (7 < (ObjClass.mk 2 [65]
        (List.replicate 7 methodNone ++ [Method.mk .block 42])).methods.length ∧
     (wrenNewClass ⟨0, [67], []⟩
        ⟨2, [65], List.replicate 7 methodNone ++ [Method.mk .block 42]⟩
        1 [66]).1.numFields = 1 + 2 ∧
     (wrenNewClass ⟨0, [67], []⟩
        ⟨2, [65], List.replicate 7 methodNone ++ [Method.mk .block 42]⟩
        1 [66]).1.methods.get? 7 =
       (ObjClass.mk 2 [65]
        (List.replicate 7 methodNone ++ [Method.mk .block 42])).methods.get? 7) := by
  refine ⟨by decide, ?_⟩
  exact newClass_spec ⟨0, [67], []⟩
    ⟨2, [65], List.replicate 7 methodNone ++ [Method.mk .block 42]⟩
    1 [66] 7 (by decide)

/-! ### Theorems about the hash map (C1, C5, C9): probe machinery -/

theorem probeIdx_lt {cap : Nat} (h0 : 0 < cap) (h j : Nat) :
    probeIdx cap h j < cap := Nat.mod_lt _ h0

theorem probeDist_lt {cap : Nat} (h0 : 0 < cap) (h s : Nat) :
    probeDist cap h s < cap := Nat.mod_lt _ h0

theorem probeIdx_zero {cap idx : Nat} (h : idx < cap) :
    probeIdx cap idx 0 = idx := by
  simp only [probeIdx, Nat.add_zero]
  exact Nat.mod_eq_of_lt h

theorem probeIdx_succ (cap idx j : Nat) :
    probeIdx cap ((idx + 1) % cap) j = probeIdx cap idx (j + 1) := by
  simp only [probeIdx]
  rw [Nat.mod_add_mod]
  congr 1
  omega

theorem probeIdx_dist {cap idx s : Nat} (hi : idx < cap) (hs : s < cap) :
    probeIdx cap idx (probeDist cap idx s) = s := by
  simp only [probeIdx, probeDist]
  rcases Nat.lt_or_ge idx s with hlt | hge
  · have h2 : (s - idx) % cap = s - idx := Nat.mod_eq_of_lt (by omega)
    rw [show s + cap - idx = (s - idx) + cap by omega, Nat.add_mod_right, h2,
      show idx + (s - idx) = s by omega, Nat.mod_eq_of_lt hs]
  · rcases Nat.eq_or_lt_of_le hge with heq | hgt
    · rw [← heq, show s + cap - s = cap by omega, Nat.mod_self,
        Nat.add_zero, Nat.mod_eq_of_lt hs]
    · rw [Nat.mod_eq_of_lt (show s + cap - idx < cap by omega),
        show idx + (s + cap - idx) = s + cap by omega, Nat.add_mod_right,
        Nat.mod_eq_of_lt hs]

theorem probeDist_of_idx {cap idx j : Nat} (hi : idx < cap) (hj : j < cap) :
    probeDist cap idx (probeIdx cap idx j) = j := by
  simp only [probeIdx, probeDist]
  rcases Nat.lt_or_ge (idx + j) cap with hlt | hge
  · rw [Nat.mod_eq_of_lt hlt, show idx + j + cap - idx = j + cap by omega,
      Nat.add_mod_right, Nat.mod_eq_of_lt hj]
  · have h1 : (idx + j) % cap = idx + j - cap := by
      rw [Nat.mod_eq_sub_mod hge]
      exact Nat.mod_eq_of_lt (by omega)
    rw [h1, show idx + j - cap + cap - idx = j by omega, Nat.mod_eq_of_lt hj]

theorem probeIdx_inj {cap idx i j : Nat} (hij : i < j) (hj : j < cap) :
    probeIdx cap idx i ≠ probeIdx cap idx j := by
  simp only [probeIdx]
  intro h
  have ha : (idx + i) % cap < cap := Nat.mod_lt _ (by omega)
  have hmod : ((idx + i) % cap + (j - i)) % cap = (idx + i) % cap := by
    calc ((idx + i) % cap + (j - i)) % cap
        = (idx + i + (j - i)) % cap := Nat.mod_add_mod ..
      _ = (idx + j) % cap := by congr 1; omega
      _ = (idx + i) % cap := h.symm
  rcases Nat.lt_or_ge ((idx + i) % cap + (j - i)) cap with hcase | hcase
  · rw [Nat.mod_eq_of_lt hcase] at hmod
    omega
  · rw [Nat.mod_eq_sub_mod hcase, Nat.mod_eq_of_lt (by omega)] at hmod
    omega

theorem probeLoop_some_spec (entries : List MapEntry) (cap : Nat) (k : Value) :
    ∀ fuel idx s, idx < cap →
    probeLoop entries cap k fuel idx = some s →
    ∃ j, j < fuel ∧ s = probeIdx cap idx j ∧
      (∃ e, entries.get? s = some e ∧ slotStops e k = true) ∧
      ∀ i, i < j → ∃ e, entries.get? (probeIdx cap idx i) = some e ∧
        slotStops e k = false := by
  intro fuel
  induction fuel with
  | zero => intro idx s _ h; simp [probeLoop] at h
  | succ f ih =>
    intro idx s hidx h
    simp only [probeLoop] at h
    cases hg : entries.get? idx with
    | none => rw [hg] at h; exact absurd h (by simp)
    | some e =>
      simp only [hg] at h
      by_cases hs : slotStops e k = true
      · rw [if_pos hs] at h
        obtain rfl := Option.some.inj h
        exact ⟨0, by omega, (probeIdx_zero hidx).symm,
          ⟨e, (probeIdx_zero hidx).symm ▸ hg, hs⟩, fun i hi => absurd hi (by omega)⟩
      · rw [if_neg hs] at h
        obtain ⟨j2, hj2, hseq, hstop, hcont⟩ :=
          ih ((idx + 1) % cap) s (Nat.mod_lt _ (by omega)) h
        refine ⟨j2 + 1, by omega, by rw [hseq, probeIdx_succ], hstop, ?_⟩
        intro i hi
        cases i with
        | zero =>
          exact ⟨e, (probeIdx_zero hidx).symm ▸ hg,
            Bool.not_eq_true _ ▸ (by simpa using hs)⟩
        | succ i2 =>
          have := hcont i2 (by omega)
          rwa [probeIdx_succ] at this

theorem probeLoop_reaches (entries : List MapEntry) (cap : Nat) (k : Value) :
    ∀ fuel idx j, idx < cap → j < fuel →
    (∃ e, entries.get? (probeIdx cap idx j) = some e ∧ slotStops e k = true) →
    (∀ i, i < j → ∃ e, entries.get? (probeIdx cap idx i) = some e ∧
      slotStops e k = false) →
    probeLoop entries cap k fuel idx = some (probeIdx cap idx j) := by
  intro fuel
  induction fuel with
  | zero => intro idx j _ h; omega
  | succ f ih =>
    intro idx j hidx hj hstop hcont
    simp only [probeLoop]
    cases j with
    | zero =>
      obtain ⟨e, hg, hs⟩ := hstop
      rw [probeIdx_zero hidx] at hg ⊢
      simp only [hg]
      rw [if_pos hs]
    | succ j2 =>
      obtain ⟨e0, hg0, hs0⟩ := hcont 0 (by omega)
      rw [probeIdx_zero hidx] at hg0
      simp only [hg0]
      rw [if_neg (by simp [hs0])]
      rw [← probeIdx_succ cap idx j2] at hstop ⊢
      refine ih ((idx + 1) % cap) j2 (Nat.mod_lt _ (by omega)) (by omega)
        hstop ?_
      intro i hi
      have := hcont (i + 1) (by omega)
      rwa [← probeIdx_succ] at this

/-! ### Slot and occupancy bookkeeping -/

theorem entry_getD_eq {entries : List MapEntry} {s : Nat} {e : MapEntry}
    (h : entries.get? s = some e) : entries.getD s emptyEntry = e := by
  rw [List.get?_eq_getElem?] at h
  simp [List.getD, h]

theorem entry_get?_lt {entries : List MapEntry} {s : Nat} {e : MapEntry}
    (h : entries.get? s = some e) : s < entries.length := by
  rw [List.get?_eq_getElem?] at h
  exact (List.getElem?_eq_some_iff.mp h).1

theorem entry_get?_set_self {entries : List MapEntry} {s : Nat}
    (h : s < entries.length) (e2 : MapEntry) :
    (entries.set s e2).get? s = some e2 := by
  rw [List.get?_eq_getElem?]
  exact List.getElem?_set_self h

theorem entry_get?_set_ne {entries : List MapEntry} {s u : Nat}
    (h : s ≠ u) (e2 : MapEntry) :
    (entries.set s e2).get? u = entries.get? u := by
  rw [List.get?_eq_getElem?, List.get?_eq_getElem?]
  exact List.getElem?_set_ne h

theorem entry_getD_set_ne {entries : List MapEntry} {s u : Nat}
    (h : s ≠ u) (e2 : MapEntry) :
    (entries.set s e2).getD u emptyEntry = entries.getD u emptyEntry := by
  simp [List.getD, List.getElem?_set_ne h]

theorem entry_getD_set_self {entries : List MapEntry} {s : Nat}
    (h : s < entries.length) (e2 : MapEntry) :
    (entries.set s e2).getD s emptyEntry = e2 := by
  simp [List.getD, List.getElem?_set_self h]

theorem occKeys_append (l1 l2 : List MapEntry) :
    occKeys (l1 ++ l2) = occKeys l1 ++ occKeys l2 := by
  simp [occKeys, List.filter_append]

theorem occKeys_cons (e : MapEntry) (l : List MapEntry) :
    occKeys (e :: l) =
      if isOccupiedE e then e.key :: occKeys l else occKeys l := by
  simp only [occKeys, List.filter_cons]
  cases hb : isOccupiedE e <;> simp [hb]

theorem list_decomp_at {entries : List MapEntry} {s : Nat} {e : MapEntry}
    (h : entries.get? s = some e) :
    entries = entries.take s ++ e :: entries.drop (s + 1) := by
  have hlt := entry_get?_lt h
  rw [List.get?_eq_getElem?] at h
  obtain ⟨_, h2⟩ := List.getElem?_eq_some_iff.mp h
  conv_lhs => rw [← List.take_append_drop s entries]
  rw [List.drop_eq_getElem_cons hlt, h2]

theorem set_decomp_at {entries : List MapEntry} {s : Nat}
    (h : s < entries.length) (e2 : MapEntry) :
    entries.set s e2 = entries.take s ++ e2 :: entries.drop (s + 1) :=
  List.set_eq_take_cons_drop e2 h

theorem occKeys_set_effect {entries : List MapEntry} {s : Nat} {e : MapEntry}
    (h : entries.get? s = some e) (e2 : MapEntry) :
    occKeys entries = occKeys (entries.take s) ++
      ((if isOccupiedE e then [e.key] else []) ++
        occKeys (entries.drop (s + 1))) ∧
    occKeys (entries.set s e2) = occKeys (entries.take s) ++
      ((if isOccupiedE e2 then [e2.key] else []) ++
        occKeys (entries.drop (s + 1))) := by
  constructor
  · conv_lhs => rw [list_decomp_at h]
    rw [occKeys_append, occKeys_cons]
    cases hb : isOccupiedE e <;> simp [hb]
  · rw [set_decomp_at (entry_get?_lt h) e2, occKeys_append, occKeys_cons]
    cases hb : isOccupiedE e2 <;> simp [hb]

theorem occKeys_set_insert {entries : List MapEntry} {s : Nat} {e : MapEntry}
    (h : entries.get? s = some e) (hocc : isOccupiedE e = false)
    {k : Value} (v : Value) (hk : isUndefinedV k = false) :
    List.Perm (occKeys (entries.set s ⟨k, v⟩)) (k :: occKeys entries) ∧
    (occKeys (entries.set s ⟨k, v⟩)).length = (occKeys entries).length + 1 := by
  obtain ⟨h1, h2⟩ := occKeys_set_effect h ⟨k, v⟩
  rw [hocc] at h1
  have hocc2 : isOccupiedE (⟨k, v⟩ : MapEntry) = true := by
    simp [isOccupiedE, hk]
  rw [hocc2] at h2
  simp only [if_false, if_true, List.nil_append] at h1 h2
  constructor
  · rw [h1, h2]
    exact List.perm_middle.trans (List.Perm.refl _)
  · rw [h1, h2]
    simp [List.length_append]
    omega

theorem occKeys_set_overwrite {entries : List MapEntry} {s : Nat}
    {e : MapEntry} (h : entries.get? s = some e)
    (hocc : isOccupiedE e = true) (v : Value) :
    occKeys (entries.set s ⟨e.key, v⟩) = occKeys entries := by
  obtain ⟨h1, h2⟩ := occKeys_set_effect h ⟨e.key, v⟩
  have hocc2 : isOccupiedE (⟨e.key, v⟩ : MapEntry) = true := hocc
  rw [hocc] at h1
  rw [hocc2] at h2
  rw [h1, h2]

theorem occKeys_set_tombstone {entries : List MapEntry} {s : Nat}
    {e : MapEntry} (h : entries.get? s = some e)
    (hocc : isOccupiedE e = true) :
    List.Perm (occKeys entries)
      (e.key :: occKeys (entries.set s tombstoneEntry)) ∧
    (occKeys entries).length =
      (occKeys (entries.set s tombstoneEntry)).length + 1 := by
  obtain ⟨h1, h2⟩ := occKeys_set_effect h tombstoneEntry
  rw [hocc] at h1
  have hocc2 : isOccupiedE tombstoneEntry = false := rfl
  rw [hocc2] at h2
  simp only [if_true, if_false, List.nil_append] at h1 h2
  constructor
  · rw [h1, h2]
    exact List.perm_middle
  · rw [h1, h2]
    simp [List.length_append]
    omega

theorem key_mem_occKeys {entries : List MapEntry} {s : Nat} {e : MapEntry}
    (h : entries.get? s = some e) (hocc : isOccupiedE e = true) :
    e.key ∈ occKeys entries := by
  have hmem : e ∈ entries := List.mem_iff_get?.mpr ⟨s, h⟩
  simp only [occKeys, List.mem_map]
  exact ⟨e, List.mem_filter.mpr ⟨hmem, hocc⟩, rfl⟩

theorem occKeys_mem_slot {entries : List MapEntry} {k : Value}
    (h : k ∈ occKeys entries) :
    ∃ s e, entries.get? s = some e ∧ isOccupiedE e = true ∧ e.key = k := by
  simp only [occKeys, List.mem_map] at h
  obtain ⟨e, hmem, hkey⟩ := h
  obtain ⟨hmem2, hocc⟩ := List.mem_filter.mp hmem
  obtain ⟨s, hs⟩ := List.mem_iff_get?.mp hmem2
  exact ⟨s, e, hs, hocc, hkey⟩

theorem occKeys_replicate_empty (n : Nat) :
    occKeys (List.replicate n emptyEntry) = [] := by
  simp [occKeys, List.filter_replicate, isOccupiedE, emptyEntry, isUndefinedV]

/-! ### Probe stop analysis and addEntry -/

theorem contAt_not_empty {e : MapEntry} {k : Value}
    (h : slotStops e k = false) : isEmptyE e = false := by
  cases hu : isUndefinedV e.key
  · simp [isEmptyE, hu]
  · simp only [slotStops, hu, if_true] at h
    simp [isEmptyE, hu, h]

theorem stop_undefined_empty {e : MapEntry} {k : Value}
    (hstop : slotStops e k = true) (hund : isUndefinedV e.key = true) :
    isEmptyE e = true := by
  simp only [slotStops, hund, if_true] at hstop
  simp [isEmptyE, hund, hstop]

theorem stop_occupied_equal {e : MapEntry} {k : Value}
    (hstop : slotStops e k = true) (hund : isUndefinedV e.key = false) :
    wrenValuesEqual e.key k = true := by
  simpa only [slotStops, hund, Bool.false_eq_true, if_false] using hstop

theorem pathOk_set {entries : List MapEntry} {cap : Nat}
    (hpath : PathOk entries cap) {s : Nat} {e2 : MapEntry}
    (hs : s < entries.length) (hlen : entries.length = cap)
    (hne : isEmptyE e2 = false)
    (hself : isOccupiedE e2 = true →
      ∀ j, j < probeDist cap (hashValue e2.key % cap) s →
        isEmptyE (entries.getD
          (probeIdx cap (hashValue e2.key % cap) j) emptyEntry) = false) :
    PathOk (entries.set s e2) cap := by
  intro t e hget hocc j hj
  have hcap : 0 < cap := by omega
  by_cases hts : t = s
  · subst hts
    rw [entry_get?_set_self hs] at hget
    have he := Option.some.inj hget
    rw [← he] at hocc hj ⊢
    have hidx : hashValue e2.key % cap < cap := Nat.mod_lt _ hcap
    have hjcap : j < cap := by
      have := probeDist_lt hcap (hashValue e2.key % cap) t
      omega
    have hu_ne : probeIdx cap (hashValue e2.key % cap) j ≠ t := by
      intro heq
      have h2 := probeDist_of_idx hidx hjcap
      rw [heq] at h2
      omega
    rw [entry_getD_set_ne (Ne.symm hu_ne) e2]
    exact hself hocc j hj
  · rw [entry_get?_set_ne (fun hh => hts hh.symm) e2] at hget
    by_cases hus : probeIdx cap (hashValue e.key % cap) j = s
    · rw [hus, entry_getD_set_self hs]
      exact hne
    · rw [entry_getD_set_ne (fun hh => hus hh.symm) e2]
      exact hpath t e hget hocc j hj

theorem probe_stop_undefined_absent {entries : List MapEntry} {cap : Nat}
    {k : Value} {s : Nat} {e : MapEntry}
    (hlen : entries.length = cap) (hcap : 0 < cap)
    (hpath : PathOk entries cap) (hk : GoodKey k)
    (hpl : probeLoop entries cap k cap (hashValue k % cap) = some s)
    (hge : entries.get? s = some e) (hu : isUndefinedV e.key = true) :
    k ∉ occKeys entries := by
  intro hmem
  have hidx : hashValue k % cap < cap := Nat.mod_lt _ hcap
  obtain ⟨j, hj, hseq, ⟨e', hge', hstop'⟩, hcont⟩ :=
    probeLoop_some_spec entries cap k cap (hashValue k % cap) s hidx hpl
  have he' : e' = e := by rw [hge] at hge'; exact (Option.some.inj hge').symm
  rw [he'] at hstop'
  have hempty : isEmptyE e = true := stop_undefined_empty hstop' hu
  obtain ⟨t, e2, hget2, hocc2, hkey2⟩ := occKeys_mem_slot hmem
  have ht : t < cap := by
    have := entry_get?_lt hget2
    omega
  have hhash : hashValue e2.key % cap = hashValue k % cap := by rw [hkey2]
  have hdt := probeDist_lt hcap (hashValue k % cap) t
  rcases Nat.lt_trichotomy (probeDist cap (hashValue k % cap) t) j
    with hcase | hcase | hcase
  · obtain ⟨e3, hge3, hs3⟩ := hcont _ hcase
    rw [probeIdx_dist hidx ht] at hge3
    have he3 : e3 = e2 := by
      rw [hget2] at hge3; exact (Option.some.inj hge3).symm
    rw [he3] at hs3
    have hocc3 : isUndefinedV e2.key = false := by
      simpa [isOccupiedE] using hocc2
    have hstop2 : slotStops e2 k = true := by
      simp only [slotStops, hkey2, hk.1, Bool.false_eq_true, if_false]
      exact hk.2.1
    rw [hstop2] at hs3
    exact absurd hs3 (by simp)
  · rw [← hcase, probeIdx_dist hidx ht] at hseq
    rw [hseq] at hge
    rw [hget2] at hge
    have he2 := Option.some.inj hge
    rw [← he2] at hu
    simp [isOccupiedE, hu] at hocc2
  · have := hpath t e2 hget2 hocc2 j (by rw [hhash]; exact hcase)
    rw [hhash, ← hseq, entry_getD_eq hge] at this
    rw [hempty] at this
    exact absurd this (by simp)

theorem probe_stop_occupied_eq {entries : List MapEntry} {cap : Nat}
    {k : Value} {s : Nat} {e : MapEntry} (hcap : 0 < cap)
    (hgs : goodStored entries)
    (hpl : probeLoop entries cap k cap (hashValue k % cap) = some s)
    (hge : entries.get? s = some e) (hu : isUndefinedV e.key = false) :
    e.key = k ∧ k ∈ occKeys entries := by
  have hidx : hashValue k % cap < cap := Nat.mod_lt _ hcap
  obtain ⟨j, hj, hseq, ⟨e', hge', hstop'⟩, hcont⟩ :=
    probeLoop_some_spec entries cap k cap (hashValue k % cap) s hidx hpl
  have he' : e' = e := by rw [hge] at hge'; exact (Option.some.inj hge').symm
  rw [he'] at hstop'
  have heq : wrenValuesEqual e.key k = true := stop_occupied_equal hstop' hu
  have hocc : isOccupiedE e = true := by simp [isOccupiedE, hu]
  have hmem : e.key ∈ occKeys entries := key_mem_occKeys hge hocc
  have hgood : GoodKey e.key := hgs e.key hmem
  have hke : k = e.key := hgood.2.2 k heq
  exact ⟨hke.symm, hke ▸ hmem⟩

theorem addEntry_spec {entries : List MapEntry} {cap : Nat} {k v : Value}
    {es : List MapEntry} {added : Bool}
    (hlen : entries.length = cap) (hcap : 0 < cap)
    (hpath : PathOk entries cap) (hnodup : (occKeys entries).Nodup)
    (hgs : goodStored entries) (hk : GoodKey k)
    (hadd : addEntry entries cap k v = some (es, added)) :
    es.length = cap ∧ PathOk es cap ∧ (occKeys es).Nodup ∧ goodStored es ∧
    (added = true →
      k ∉ occKeys entries ∧
      List.Perm (occKeys es) (k :: occKeys entries) ∧
      (occKeys es).length = (occKeys entries).length + 1) ∧
    (added = false →
      k ∈ occKeys entries ∧ occKeys es = occKeys entries) := by
  simp only [addEntry] at hadd
  cases hpl : probeLoop entries cap k cap (hashValue k % cap) with
  | none => rw [hpl] at hadd; exact absurd hadd (by simp)
  | some s =>
    simp only [hpl] at hadd
    cases hge : entries.get? s with
    | none =>
      simp only [hge] at hadd
      exact absurd hadd (by simp)
    | some e =>
      simp only [hge] at hadd
      have hidx : hashValue k % cap < cap := Nat.mod_lt _ hcap
      have hslt : s < entries.length := entry_get?_lt hge
      obtain ⟨j, hj, hseq, ⟨e', hge', hstop'⟩, hcont⟩ :=
        probeLoop_some_spec entries cap k cap (hashValue k % cap) s hidx hpl
      have he' : e' = e := by
        rw [hge] at hge'; exact (Option.some.inj hge').symm
      rw [he'] at hstop'
      by_cases hu : isUndefinedV e.key = true
      · rw [if_pos hu] at hadd
        obtain ⟨hes, hadded⟩ := Prod.mk.injEq .. ▸ Option.some.inj hadd
        subst hes hadded
        have hoccF : isOccupiedE e = false := by simp [isOccupiedE, hu]
        have habs : k ∉ occKeys entries :=
          probe_stop_undefined_absent hlen hcap hpath hk hpl hge hu
        obtain ⟨hperm, hlen2⟩ := occKeys_set_insert hge hoccF v hk.1
        have hnew_ne : isEmptyE (⟨k, v⟩ : MapEntry) = false := by
          simp [isEmptyE, hk.1]
        have hpath2 : PathOk (entries.set s ⟨k, v⟩) cap := by
          refine pathOk_set hpath hslt hlen hnew_ne ?_
          intro _ j2 hj2
          have hdist : probeDist cap (hashValue k % cap) s = j := by
            rw [hseq]
            exact probeDist_of_idx hidx (by omega)
          rw [hdist] at hj2
          obtain ⟨e3, hge3, hs3⟩ := hcont j2 hj2
          rw [entry_getD_eq hge3]
          exact contAt_not_empty hs3
        refine ⟨by simp [hlen], hpath2, ?_, ?_, ?_, by simp⟩
        · exact (List.Perm.nodup hperm.symm) (List.nodup_cons.mpr ⟨habs, hnodup⟩)
        · intro kk hkk
          rcases List.mem_cons.mp ((List.Perm.mem_iff hperm).mp hkk)
            with h1 | h1
          · rw [h1]; exact hk
          · exact hgs kk h1
        · intro _
          exact ⟨habs, hperm, hlen2⟩
      · rw [if_neg hu] at hadd
        obtain ⟨hes, hadded⟩ := Prod.mk.injEq .. ▸ Option.some.inj hadd
        subst hes hadded
        have huf : isUndefinedV e.key = false := by simpa using hu
        have hocc : isOccupiedE e = true := by simp [isOccupiedE, huf]
        obtain ⟨hkey, hmem⟩ :=
          probe_stop_occupied_eq hcap hgs hpl hge huf
        have hsame : occKeys (entries.set s ⟨e.key, v⟩) = occKeys entries :=
          occKeys_set_overwrite hge hocc v
        have hnew_ne : isEmptyE (⟨e.key, v⟩ : MapEntry) = false := by
          simp [isEmptyE, huf]
        have hpath2 : PathOk (entries.set s ⟨e.key, v⟩) cap := by
          refine pathOk_set hpath hslt hlen hnew_ne ?_
          intro _ j2 hj2
          exact hpath s e hge hocc j2 hj2
        refine ⟨by simp [hlen], hpath2, by rw [hsame]; exact hnodup,
          by rw [goodStored, hsame]; exact hgs, by simp, ?_⟩
        intro _
        exact ⟨hkey ▸ hmem, hsame⟩

/-! ### resizeMap -/

theorem resizeFold_none (cap2 : Nat) :
    ∀ src : List MapEntry, src.foldl (resizeEntriesStep cap2) none = none := by
  intro src
  induction src with
  | nil => rfl
  | cons e rest ih =>
    rw [List.foldl_cons]
    have : resizeEntriesStep cap2 none e = none := rfl
    rw [this, ih]

theorem addEntry_len_occ {entries : List MapEntry} {cap : Nat} {k v : Value}
    {es : List MapEntry} {added : Bool}
    (hadd : addEntry entries cap k v = some (es, added)) :
    es.length = entries.length ∧
    (occKeys es).length ≤ (occKeys entries).length + 1 := by
  simp only [addEntry] at hadd
  cases hpl : probeLoop entries cap k cap (hashValue k % cap) with
  | none => rw [hpl] at hadd; exact absurd hadd (by simp)
  | some s =>
    simp only [hpl] at hadd
    cases hge : entries.get? s with
    | none =>
      simp only [hge] at hadd
      exact absurd hadd (by simp)
    | some e =>
      simp only [hge] at hadd
      by_cases hu : isUndefinedV e.key = true
      · rw [if_pos hu] at hadd
        obtain ⟨hes, _⟩ := Prod.mk.injEq .. ▸ Option.some.inj hadd
        subst hes
        obtain ⟨h1, h2⟩ := occKeys_set_effect hge (⟨k, v⟩ : MapEntry)
        refine ⟨by simp, ?_⟩
        rw [h1, h2]
        cases hb : isOccupiedE e <;> cases hb2 : isOccupiedE (⟨k, v⟩ : MapEntry)
          <;> simp [List.length_append] <;> omega
      · rw [if_neg hu] at hadd
        obtain ⟨hes, _⟩ := Prod.mk.injEq .. ▸ Option.some.inj hadd
        subst hes
        obtain ⟨h1, h2⟩ := occKeys_set_effect hge (⟨e.key, v⟩ : MapEntry)
        refine ⟨by simp, ?_⟩
        rw [h1, h2]
        cases hb : isOccupiedE e <;> cases hb2 : isOccupiedE (⟨e.key, v⟩ : MapEntry)
          <;> simp [List.length_append] <;> omega

theorem resizeFold_safe (cap2 : Nat) :
    ∀ (src acc out : List MapEntry),
    acc.length = cap2 →
    src.foldl (resizeEntriesStep cap2) (some acc) = some out →
    out.length = cap2 ∧
    (occKeys out).length ≤ (occKeys src).length + (occKeys acc).length := by
  intro src
  induction src with
  | nil =>
    intro acc out h1 h7
    simp only [List.foldl_nil] at h7
    obtain rfl := Option.some.inj h7
    exact ⟨h1, by simp [occKeys]⟩
  | cons e rest ih =>
    intro acc out h1 h7
    rw [List.foldl_cons] at h7
    by_cases hocc : isUndefinedV e.key = true
    · have hstep : resizeEntriesStep cap2 (some acc) e = some acc := by
        simp [resizeEntriesStep, hocc]
      rw [hstep] at h7
      obtain ⟨a1, a2⟩ := ih acc out h1 h7
      refine ⟨a1, ?_⟩
      rw [occKeys_cons]
      simp only [isOccupiedE, hocc, Bool.not_true, Bool.false_eq_true,
        if_false]
      exact a2
    · have huf : isUndefinedV e.key = false := by simpa using hocc
      cases hae : addEntry acc cap2 e.key e.value with
      | none =>
        have hstep : resizeEntriesStep cap2 (some acc) e = none := by
          simp [resizeEntriesStep, hocc, hae]
        rw [hstep, resizeFold_none] at h7
        exact absurd h7 (by simp)
      | some p =>
        obtain ⟨es2, added⟩ := p
        have hstep : resizeEntriesStep cap2 (some acc) e = some es2 := by
          simp [resizeEntriesStep, hocc, hae]
        rw [hstep] at h7
        obtain ⟨b1, b2⟩ := addEntry_len_occ hae
        obtain ⟨a1, a2⟩ := ih es2 out (by omega) h7
        refine ⟨a1, ?_⟩
        rw [occKeys_cons]
        simp only [isOccupiedE, huf, Bool.not_false, if_true]
        simp only [List.length_cons]
        omega

theorem resizeFold_wf {cap2 : Nat} (hcap2 : 0 < cap2) :
    ∀ (src acc out : List MapEntry),
    acc.length = cap2 → PathOk acc cap2 → (occKeys acc).Nodup →
    goodStored acc →
    (∀ kk ∈ occKeys src, GoodKey kk) →
    (occKeys src ++ occKeys acc).Nodup →
    src.foldl (resizeEntriesStep cap2) (some acc) = some out →
    out.length = cap2 ∧ PathOk out cap2 ∧ (occKeys out).Nodup ∧
    goodStored out ∧
    List.Perm (occKeys out) (occKeys src ++ occKeys acc) := by
  intro src
  induction src with
  | nil =>
    intro acc out h1 h2 h3 h4 h5 h6 h7
    simp only [List.foldl_nil] at h7
    obtain rfl := Option.some.inj h7
    exact ⟨h1, h2, h3, h4, by simp [occKeys]⟩
  | cons e rest ih =>
    intro acc out h1 h2 h3 h4 h5 h6 h7
    rw [List.foldl_cons] at h7
    by_cases hocc : isUndefinedV e.key = true
    · have hstep : resizeEntriesStep cap2 (some acc) e = some acc := by
        simp [resizeEntriesStep, hocc]
      rw [hstep] at h7
      have hocck : occKeys (e :: rest) = occKeys rest := by
        rw [occKeys_cons]
        simp [isOccupiedE, hocc]
      rw [hocck] at h5 h6
      obtain ⟨a1, a2, a3, a4, a5⟩ := ih acc out h1 h2 h3 h4 h5 h6 h7
      exact ⟨a1, a2, a3, a4, by rw [hocck]; exact a5⟩
    · have huf : isUndefinedV e.key = false := by simpa using hocc
      have hoccT : isOccupiedE e = true := by simp [isOccupiedE, huf]
      cases hae : addEntry acc cap2 e.key e.value with
      | none =>
        have hstep : resizeEntriesStep cap2 (some acc) e = none := by
          simp [resizeEntriesStep, hocc, hae]
        rw [hstep, resizeFold_none] at h7
        exact absurd h7 (by simp)
      | some p =>
        obtain ⟨es2, added⟩ := p
        have hstep : resizeEntriesStep cap2 (some acc) e = some es2 := by
          simp [resizeEntriesStep, hocc, hae]
        rw [hstep] at h7
        rw [occKeys_cons, if_pos hoccT] at h5 h6
        have hkgood : GoodKey e.key := h5 e.key (List.mem_cons_self ..)
        obtain ⟨b1, b2, b3, b4, b5, b6⟩ :=
          addEntry_spec h1 hcap2 h2 h3 h4 hkgood hae
        rw [List.cons_append] at h6
        cases added with
        | false =>
          obtain ⟨hmem, _⟩ := b6 rfl
          exact absurd (List.mem_append.mpr (Or.inr hmem))
            (List.nodup_cons.mp h6).1
        | true =>
          obtain ⟨habs, hperm, _⟩ := b5 rfl
          have hcomb : List.Perm (occKeys rest ++ occKeys es2)
              (e.key :: (occKeys rest ++ occKeys acc)) :=
            ((List.Perm.append_left (occKeys rest) hperm).trans
              List.perm_middle)
          have h6' : (occKeys rest ++ occKeys es2).Nodup :=
            List.Perm.nodup hcomb.symm h6
          have h5' : ∀ kk ∈ occKeys rest, GoodKey kk :=
            fun kk hkk => h5 kk (List.mem_cons_of_mem _ hkk)
          obtain ⟨a1, a2, a3, a4, a5⟩ := ih es2 out b1 b2 b3 b4 h5' h6' h7
          refine ⟨a1, a2, a3, a4, ?_⟩
          rw [occKeys_cons, if_pos hoccT, List.cons_append]
          exact a5.trans hcomb

theorem replicate_pathOk (cap2 n : Nat) :
    PathOk (List.replicate n emptyEntry) cap2 := by
  intro s e hget hocc j hj
  have hmem : e ∈ List.replicate n emptyEntry :=
    List.mem_iff_get?.mpr ⟨s, hget⟩
  have he : e = emptyEntry := List.eq_of_mem_replicate hmem
  rw [he] at hocc
  exact absurd hocc (by simp [isOccupiedE, emptyEntry, isUndefinedV])

theorem resizeMap_wf {m : ObjMap} {cap2 : Nat} {m2 : ObjMap}
    (hcap2 : 0 < cap2)
    (hlen : m.entries.length = m.capacity)
    (hnodup : (occKeys m.entries).Nodup) (hgs : goodStored m.entries)
    (hres : resizeMap m cap2 = some m2) :
    m2.capacity = cap2 ∧ m2.count = m.count ∧ m2.entries.length = cap2 ∧
    PathOk m2.entries cap2 ∧ (occKeys m2.entries).Nodup ∧
    goodStored m2.entries ∧
    List.Perm (occKeys m2.entries) (occKeys m.entries) := by
  have hsrc : m.entries.take m.capacity = m.entries := by
    rw [← hlen]
    exact List.take_length ..
  simp only [resizeMap, hsrc] at hres
  cases hfold : m.entries.foldl (resizeEntriesStep cap2)
      (some (List.replicate cap2 emptyEntry)) with
  | none => rw [hfold] at hres; exact absurd hres (by simp)
  | some out =>
    rw [hfold] at hres
    obtain rfl := Option.some.inj hres
    obtain ⟨a1, a2, a3, a4, a5⟩ := resizeFold_wf hcap2 m.entries
      (List.replicate cap2 emptyEntry) out
      (List.length_replicate ..) (replicate_pathOk cap2 cap2)
      (by rw [occKeys_replicate_empty]; exact List.nodup_nil)
      (by rw [goodStored, occKeys_replicate_empty]; simp)
      hgs
      (by rw [occKeys_replicate_empty, List.append_nil]; exact hnodup)
      hfold
    refine ⟨rfl, rfl, a1, a2, a3, a4, ?_⟩
    rw [occKeys_replicate_empty, List.append_nil] at a5
    exact a5

theorem resizeMap_safe {m : ObjMap} {cap2 : Nat} {m2 : ObjMap}
    (hlen : m.entries.length = m.capacity)
    (hres : resizeMap m cap2 = some m2) :
    m2.capacity = cap2 ∧ m2.count = m.count ∧ m2.entries.length = cap2 ∧
    (occKeys m2.entries).length ≤ (occKeys m.entries).length := by
  have hsrc : m.entries.take m.capacity = m.entries := by
    rw [← hlen]
    exact List.take_length ..
  simp only [resizeMap, hsrc] at hres
  cases hfold : m.entries.foldl (resizeEntriesStep cap2)
      (some (List.replicate cap2 emptyEntry)) with
  | none => rw [hfold] at hres; exact absurd hres (by simp)
  | some out =>
    rw [hfold] at hres
    obtain rfl := Option.some.inj hres
    obtain ⟨a1, a2⟩ := resizeFold_safe cap2 m.entries
      (List.replicate cap2 emptyEntry) out (List.length_replicate ..) hfold
    rw [occKeys_replicate_empty] at a2
    simp only [List.length_nil, Nat.add_zero] at a2
    exact ⟨rfl, rfl, a1, a2⟩

/-! ### wrenMapSet preservation -/

theorem cap_load_exact (n : Nat) : 16 * 2 ^ n * 75 / 100 = 12 * 2 ^ n := by
  have ht : 0 < 2 ^ n := pow_pos (by norm_num) n
  omega

theorem addEntry_occ_if {entries : List MapEntry} {cap : Nat} {k v : Value}
    {es : List MapEntry} {added : Bool}
    (hadd : addEntry entries cap k v = some (es, added)) :
    es.length = entries.length ∧
    (occKeys es).length ≤
      (occKeys entries).length + (if added then 1 else 0) := by
  simp only [addEntry] at hadd
  cases hpl : probeLoop entries cap k cap (hashValue k % cap) with
  | none => rw [hpl] at hadd; exact absurd hadd (by simp)
  | some s =>
    simp only [hpl] at hadd
    cases hge : entries.get? s with
    | none =>
      simp only [hge] at hadd
      exact absurd hadd (by simp)
    | some e =>
      simp only [hge] at hadd
      by_cases hu : isUndefinedV e.key = true
      · rw [if_pos hu] at hadd
        obtain ⟨hes, hb⟩ := Prod.mk.injEq .. ▸ Option.some.inj hadd
        subst hes
        subst hb
        obtain ⟨h1, h2⟩ := occKeys_set_effect hge (⟨k, v⟩ : MapEntry)
        refine ⟨by simp, ?_⟩
        rw [h1, h2]
        cases hb1 : isOccupiedE e <;>
          cases hb2 : isOccupiedE (⟨k, v⟩ : MapEntry) <;>
          simp [List.length_append] <;> omega
      · rw [if_neg hu] at hadd
        obtain ⟨hes, hb⟩ := Prod.mk.injEq .. ▸ Option.some.inj hadd
        subst hes
        subst hb
        have huf : isUndefinedV e.key = false := by simpa using hu
        have hocc : isOccupiedE e = true := by simp [isOccupiedE, huf]
        rw [occKeys_set_overwrite hge hocc v]
        exact ⟨by simp, by simp⟩

theorem mapSet_addPhase {m1 : ObjMap} {k v : Value} {m2 : ObjMap}
    (hk : GoodKey k)
    (hlen1 : m1.entries.length = m1.capacity) (hcap1 : 0 < m1.capacity)
    (hpath1 : PathOk m1.entries m1.capacity)
    (hnodup1 : (occKeys m1.entries).Nodup) (hgs1 : goodStored m1.entries)
    (hcnt1 : m1.count = (occKeys m1.entries).length)
    (hset : (match addEntry m1.entries m1.capacity k v with
      | none => none
      | some (es, added) =>
        some (ObjMap.mk m1.capacity
          (if added then m1.count + 1 else m1.count) es)) = some m2) :
    m2.capacity = m1.capacity ∧
    m2.entries.length = m1.capacity ∧ PathOk m2.entries m1.capacity ∧
    (occKeys m2.entries).Nodup ∧ goodStored m2.entries ∧
    m2.count = (occKeys m2.entries).length ∧
    m2.count ≤ m1.count + 1 ∧
    List.Perm (occKeys m2.entries)
      (if k ∈ occKeys m1.entries then occKeys m1.entries
       else k :: occKeys m1.entries) := by
  cases hae : addEntry m1.entries m1.capacity k v with
  | none => rw [hae] at hset; exact absurd hset (by simp)
  | some p =>
    obtain ⟨es, added⟩ := p
    rw [hae] at hset
    obtain rfl := Option.some.inj hset
    obtain ⟨b1, b2, b3, b4, b5, b6⟩ :=
      addEntry_spec hlen1 hcap1 hpath1 hnodup1 hgs1 hk hae
    cases added with
    | true =>
      obtain ⟨habs, hperm, hl⟩ := b5 rfl
      refine ⟨rfl, b1, b2, b3, b4, ?_, by simp, ?_⟩
      · simp only [if_pos]
        rw [hl, hcnt1]
      · rw [if_neg habs]
        exact hperm
    | false =>
      obtain ⟨hmem, hsame⟩ := b6 rfl
      refine ⟨rfl, b1, b2, b3, b4, ?_, by simp, ?_⟩
      · simp only [Bool.false_eq_true, if_false]
        rw [hsame, hcnt1]
      · rw [if_pos hmem, hsame]

theorem mapSet_wf {m : ObjMap} {k v : Value} {m2 : ObjMap}
    (hwf : MapWf m) (hk : GoodKey k)
    (hset : wrenMapSet m k v = some m2) :
    MapWf m2 ∧
    List.Perm (occKeys m2.entries)
      (if k ∈ occKeys m.entries then occKeys m.entries
       else k :: occKeys m.entries) := by
  obtain ⟨hlen, hshape, hload, hcnt, hnodup, hgs, hpath⟩ := hwf
  simp only [wrenMapSet] at hset
  by_cases hgrow : m.count + 1 > m.capacity * 75 / 100
  · rw [if_pos hgrow] at hset
    have hc2shape : (16 ≤ (if m.capacity * 2 < 16 then 16 else m.capacity * 2)) ∧
        ∃ n, (if m.capacity * 2 < 16 then 16 else m.capacity * 2) =
          16 * 2 ^ n := by
      rcases hshape with h0 | ⟨n, hn⟩
      · rw [h0]
        norm_num
        exact ⟨0, by norm_num⟩
      · have ht : 0 < 2 ^ n := pow_pos (by norm_num) n
        rw [hn, if_neg (by omega)]
        exact ⟨by omega, ⟨n + 1, by ring⟩⟩

    obtain ⟨hc2ge, hc2ex⟩ := hc2shape
    obtain ⟨n2, hc2⟩ := hc2ex
    cases hres : resizeMap m (if m.capacity * 2 < 16 then 16 else m.capacity * 2) with
    | none => rw [hres] at hset; exact absurd hset (by simp)
    | some m1 =>
      rw [hres] at hset
      obtain ⟨r1, r2, r3, r4, r5, r6, r7⟩ :=
        resizeMap_wf (by omega) hlen hnodup hgs hres
      obtain ⟨a1, a2, a3, a4, a5, a6, a7, a8⟩ := mapSet_addPhase hk
        (by rw [r3, r1]) (by omega : 0 < m1.capacity)
        (by rw [r1]; exact r4) r5 r6 (by rw [r2, hcnt, r7.length_eq])
        hset
      have hcountle : m2.count ≤ m.count + 1 := by
        rw [r2] at a7
        exact a7
      have hcap2eq : m2.capacity = 16 * 2 ^ n2 := by rw [a1, r1, hc2]
      refine ⟨⟨by rw [a2, a1], Or.inr ⟨n2, hcap2eq⟩, ?_, a6,
        a4, a5, by rw [a1]; exact a3⟩, ?_⟩
      · rw [hcap2eq, cap_load_exact]
        rcases hshape with h0 | ⟨n, hn⟩
        · have : m.count = 0 := by
            rw [h0] at hload
            simpa using hload
          have ht : 0 < 2 ^ n2 := pow_pos (by norm_num) n2
          omega
        · rw [hn, cap_load_exact] at hload
          rw [hn] at hc2
          have ht : 0 < 2 ^ n := pow_pos (by norm_num) n
          have ht2 : 0 < 2 ^ n2 := pow_pos (by norm_num) n2
          have h2n : 16 * 2 ^ n2 = 32 * 2 ^ n := by
            rw [← hc2, if_neg (by omega)]
            ring
          omega
      · by_cases hmem : k ∈ occKeys m.entries
        · have hmem1 : k ∈ occKeys m1.entries := (List.Perm.mem_iff r7).mpr hmem
          rw [if_pos hmem1] at a8
          rw [if_pos hmem]
          exact a8.trans r7
        · have hmem1 : k ∉ occKeys m1.entries :=
            fun hh => hmem ((List.Perm.mem_iff r7).mp hh)
          rw [if_neg hmem1] at a8
          rw [if_neg hmem]
          exact a8.trans (List.Perm.cons k r7)
  · rw [if_neg hgrow] at hset
    have hcap0 : 0 < m.capacity := by
      by_contra hc
      have : m.capacity = 0 := by omega
      rw [this] at hgrow
      omega
    obtain ⟨a1, a2, a3, a4, a5, a6, a7, a8⟩ := mapSet_addPhase hk
      hlen hcap0 hpath hnodup hgs hcnt hset
    refine ⟨⟨by rw [a2, a1], by rw [a1]; exact hshape, by omega,
      a6, a4, a5, by rw [a1]; exact a3⟩, a8⟩

/-! ### findEntry, wrenMapRemoveKey and wrenMapClear preservation -/

theorem grow_load_bound {cap cnt : Nat}
    (hshape : cap = 0 ∨ ∃ n, cap = 16 * 2 ^ n)
    (hload : cnt ≤ cap * 75 / 100) :
    cnt + 1 ≤ (if cap * 2 < 16 then 16 else cap * 2) * 75 / 100 ∧
    (16 ≤ if cap * 2 < 16 then 16 else cap * 2) ∧
    ∃ n2, (if cap * 2 < 16 then 16 else cap * 2) = 16 * 2 ^ n2 := by
  rcases hshape with h0 | ⟨n, hn⟩
  · rw [h0] at hload ⊢
    norm_num at hload ⊢
    exact ⟨by omega, ⟨0, by norm_num⟩⟩
  · have ht : 0 < 2 ^ n := pow_pos (by norm_num) n
    rw [hn] at hload ⊢
    rw [cap_load_exact] at hload
    rw [if_neg (by omega)]
    have he : 16 * 2 ^ n * 2 = 16 * 2 ^ (n + 1) := by ring
    rw [he, cap_load_exact]
    have ht2 : (2 : Nat) ^ (n + 1) = 2 * 2 ^ n := by ring
    exact ⟨by omega, by omega, ⟨n + 1, rfl⟩⟩

theorem mapSet_safe {m : ObjMap} {k v : Value} {m2 : ObjMap}
    (hs : MapSafe m) (hset : wrenMapSet m k v = some m2) : MapSafe m2 := by
  obtain ⟨hlen, hshape, hload, hocc⟩ := hs
  simp only [wrenMapSet] at hset
  by_cases hgrow : m.count + 1 > m.capacity * 75 / 100
  · rw [if_pos hgrow] at hset
    obtain ⟨g1, g2, n2, g3⟩ := grow_load_bound hshape hload
    cases hres : resizeMap m (if m.capacity * 2 < 16 then 16
        else m.capacity * 2) with
    | none => rw [hres] at hset; exact absurd hset (by simp)
    | some m1 =>
      rw [hres] at hset
      have hset2 : (match addEntry m1.entries m1.capacity k v with
          | none => none
          | some (es, added) =>
            some (ObjMap.mk m1.capacity
              (if added then m1.count + 1 else m1.count) es)) = some m2 :=
        hset
      obtain ⟨r1, r2, r3, r4⟩ := resizeMap_safe hlen hres
      cases hae : addEntry m1.entries m1.capacity k v with
      | none => rw [hae] at hset2; exact absurd hset2 (by simp)
      | some p =>
        obtain ⟨es, added⟩ := p
        rw [hae] at hset2
        obtain rfl := Option.some.inj hset2
        obtain ⟨b1, b2⟩ := addEntry_occ_if hae
        refine ⟨by simp [b1, r3, r1], Or.inr ⟨n2, by simp [r1, g3]⟩, ?_, ?_⟩
        · simp only [r1, g3, cap_load_exact] at *
          cases added <;> simp <;> omega
        · simp only at *
          cases added <;> simp at b2 ⊢ <;> omega
  · rw [if_neg hgrow] at hset
    have hset2 : (match addEntry m.entries m.capacity k v with
        | none => none
        | some (es, added) =>
          some (ObjMap.mk m.capacity
            (if added then m.count + 1 else m.count) es)) = some m2 :=
      hset
    cases hae : addEntry m.entries m.capacity k v with
    | none => rw [hae] at hset2; exact absurd hset2 (by simp)
    | some p =>
      obtain ⟨es, added⟩ := p
      rw [hae] at hset2
      obtain rfl := Option.some.inj hset2
      obtain ⟨b1, b2⟩ := addEntry_occ_if hae
      refine ⟨by simp [b1, hlen], Or.inr ?_ , ?_, ?_⟩
      · rcases hshape with h0 | hex
        · exfalso
          rw [h0] at hgrow
          omega
        · exact hex
      · simp only
        cases added <;> simp <;> omega
      · simp only
        cases added <;> simp at b2 ⊢ <;> omega

theorem mapWf_clear : MapWf (ObjMap.mk 0 0 []) := by
  refine ⟨rfl, Or.inl rfl, by simp, by simp [occKeys], by simp [occKeys],
    by intro kk hkk; simp [occKeys] at hkk, ?_⟩
  intro s e hget
  simp at hget

theorem mapSafe_clear : MapSafe (ObjMap.mk 0 0 []) :=
  ⟨rfl, Or.inl rfl, by simp, by simp [occKeys]⟩

theorem findEntry_found {m : ObjMap} {k : Value} {s : Nat}
    (hfe : findEntry m k = some (some s)) :
    0 < m.capacity ∧
    probeLoop m.entries m.capacity k m.capacity
      (hashValue k % m.capacity) = some s ∧
    ∃ e, m.entries.get? s = some e ∧ isUndefinedV e.key = false := by
  simp only [findEntry] at hfe
  by_cases hc : m.capacity = 0
  · rw [if_pos hc] at hfe
    exact absurd hfe (by simp)
  · rw [if_neg hc] at hfe
    cases hpl : probeLoop m.entries m.capacity k m.capacity
        (hashValue k % m.capacity) with
    | none => rw [hpl] at hfe; exact absurd hfe (by simp)
    | some s2 =>
      simp only [hpl] at hfe
      cases hge : m.entries.get? s2 with
      | none =>
        simp only [hge] at hfe
        exact absurd hfe (by simp)
      | some e =>
        simp only [hge] at hfe
        by_cases hu : isUndefinedV e.key = true
        · rw [if_pos hu] at hfe
          exact absurd (Option.some.inj hfe) (by simp)
        · rw [if_neg hu] at hfe
          have hs2 : s2 = s := by simpa using hfe
          subst hs2
          exact ⟨by omega, rfl, e, hge, by simpa using hu⟩

theorem findEntry_absent {m : ObjMap} {k : Value}
    (hlen : m.entries.length = m.capacity)
    (hpath : PathOk m.entries m.capacity) (hk : GoodKey k)
    (hfe : findEntry m k = some none) :
    k ∉ occKeys m.entries := by
  simp only [findEntry] at hfe
  by_cases hc : m.capacity = 0
  · have hempty : m.entries = [] := List.length_eq_zero.mp (by omega)
    rw [hempty]
    simp [occKeys]
  · rw [if_neg hc] at hfe
    cases hpl : probeLoop m.entries m.capacity k m.capacity
        (hashValue k % m.capacity) with
    | none => rw [hpl] at hfe; exact absurd hfe (by simp)
    | some s =>
      simp only [hpl] at hfe
      cases hge : m.entries.get? s with
      | none =>
        simp only [hge] at hfe
        exact absurd hfe (by simp)
      | some e =>
        simp only [hge] at hfe
        by_cases hu : isUndefinedV e.key = true
        · exact probe_stop_undefined_absent hlen (by omega) hpath hk hpl
            hge hu
        · rw [if_neg hu] at hfe
          exact absurd (Option.some.inj hfe) (by simp)

theorem shrink_cap_facts {cap : Nat} (hgt : 16 < cap)
    (hshape : cap = 0 ∨ ∃ n, cap = 16 * 2 ^ n) :
    (if cap / 2 < 16 then 16 else cap / 2) = cap / 2 ∧ 16 ≤ cap / 2 ∧
    ∃ n2, cap / 2 = 16 * 2 ^ n2 ∧ cap = 16 * 2 ^ (n2 + 1) := by
  rcases hshape with h0 | ⟨n, hn⟩
  · omega
  · cases n with
    | zero =>
      rw [hn] at hgt
      norm_num at hgt
    | succ n2 =>
      have ht : 0 < 2 ^ n2 := pow_pos (by norm_num) n2
      have hdiv : cap / 2 = 16 * 2 ^ n2 := by
        rw [hn, pow_succ]
        omega
      refine ⟨by rw [hdiv]; rw [if_neg (by omega)], by omega, n2, hdiv, hn⟩

theorem mapRemove_wf {m : ObjMap} {k : Value} {m2 : ObjMap} {r : Value}
    (hwf : MapWf m) (hk : GoodKey k)
    (hrem : wrenMapRemoveKey m k = some (m2, r)) :
    MapWf m2 ∧
    List.Perm (occKeys m2.entries) ((occKeys m.entries).erase k) ∧
    k ∉ occKeys m2.entries := by
  obtain ⟨hlen, hshape, hload, hcnt, hnodup, hgs, hpath⟩ := hwf
  simp only [wrenMapRemoveKey] at hrem
  cases hfe : findEntry m k with
  | none => rw [hfe] at hrem; exact absurd hrem (by simp)
  | some o =>
    rw [hfe] at hrem
    cases o with
    | none =>
      simp only at hrem
      obtain ⟨h2, _⟩ := Prod.mk.injEq .. ▸ Option.some.inj hrem
      have habs : k ∉ occKeys m.entries :=
        findEntry_absent hlen hpath hk hfe
      rw [← h2]
      refine ⟨⟨hlen, hshape, hload, hcnt, hnodup, hgs, hpath⟩, ?_, habs⟩
      rw [List.erase_of_not_mem habs]
    | some s =>
      obtain ⟨hcap, hpl, e2, hge2, hu2⟩ := findEntry_found hfe
      have hrem2 : (match m.entries.get? s with
          | none => none
          | some e =>
            if m.count - 1 = 0 then
              some (wrenMapClear (ObjMap.mk m.capacity (m.count - 1)
                (m.entries.set s tombstoneEntry)), e.value)
            else if 16 < m.capacity ∧
                m.count - 1 < m.capacity / 2 * 75 / 100 then
              match resizeMap (ObjMap.mk m.capacity (m.count - 1)
                  (m.entries.set s tombstoneEntry))
                  (if m.capacity / 2 < 16 then 16 else m.capacity / 2) with
              | none => none
              | some m3 => some (m3, e.value)
            else some (ObjMap.mk m.capacity (m.count - 1)
              (m.entries.set s tombstoneEntry), e.value)) =
          some (m2, r) := hrem
      simp only [hge2] at hrem2
      obtain ⟨hkey, hmem⟩ := probe_stop_occupied_eq hcap hgs hpl hge2 hu2
      have hocc : isOccupiedE e2 = true := by simp [isOccupiedE, hu2]
      obtain ⟨htombP, htombL⟩ := occKeys_set_tombstone hge2 hocc
      rw [hkey] at htombP
      have hkey_notmem :
          k ∉ occKeys (m.entries.set s tombstoneEntry) := by
        have hnd2 : (k :: occKeys (m.entries.set s tombstoneEntry)).Nodup :=
          List.Perm.nodup htombP hnodup
        exact (List.nodup_cons.mp hnd2).1
      have hper2 : List.Perm (occKeys (m.entries.set s tombstoneEntry))
          ((occKeys m.entries).erase k) := by
        have h3 := List.Perm.erase k htombP
        rw [List.erase_cons_head] at h3
        exact h3.symm
      have hlen2 : (m.entries.set s tombstoneEntry).length = m.capacity := by
        simp [hlen]
      have hpath2 : PathOk (m.entries.set s tombstoneEntry) m.capacity := by
        refine pathOk_set hpath (entry_get?_lt hge2) hlen (by decide) ?_
        intro hcontra
        exact absurd hcontra (by decide)
      have hnodup2 : (occKeys (m.entries.set s tombstoneEntry)).Nodup :=
        (List.nodup_cons.mp (List.Perm.nodup htombP hnodup)).2
      have hgs2 : goodStored (m.entries.set s tombstoneEntry) := by
        intro kk hkk
        exact hgs kk ((List.Perm.mem_iff htombP).mpr
          (List.mem_cons_of_mem _ hkk))
      have hcnt2 : m.count - 1 =
          (occKeys (m.entries.set s tombstoneEntry)).length := by
        omega
      by_cases hzero : m.count - 1 = 0
      · rw [if_pos hzero] at hrem2
        obtain ⟨h2, _⟩ := Prod.mk.injEq .. ▸ Option.some.inj hrem2
        rw [← h2]
        refine ⟨mapWf_clear, ?_, by simp [wrenMapClear, occKeys]⟩
        have hocc0 : occKeys (m.entries.set s tombstoneEntry) = [] := by
          have := hcnt2
          rw [hzero] at this
          exact List.length_eq_zero.mp this.symm
        rw [hocc0] at hper2
        simpa [wrenMapClear, occKeys] using hper2
      · rw [if_neg hzero] at hrem2
        by_cases hshr : 16 < m.capacity ∧
            m.count - 1 < m.capacity / 2 * 75 / 100
        · rw [if_pos hshr] at hrem2
          obtain ⟨hclamp, hge16, n2, hdiv, hcapeq⟩ :=
            shrink_cap_facts hshr.1 hshape
          cases hres : resizeMap
              (ObjMap.mk m.capacity (m.count - 1)
                (m.entries.set s tombstoneEntry))
              (if m.capacity / 2 < 16 then 16 else m.capacity / 2) with
          | none => rw [hres] at hrem2; exact absurd hrem2 (by simp)
          | some m3 =>
            rw [hres] at hrem2
            obtain ⟨h2, _⟩ := Prod.mk.injEq .. ▸ Option.some.inj hrem2
            rw [← h2]
            obtain ⟨r1, r2, r3, r4, r5, r6, r7⟩ :=
              resizeMap_wf (by omega) hlen2 hnodup2 hgs2 hres
            have hper3 : List.Perm (occKeys m3.entries)
                ((occKeys m.entries).erase k) := r7.trans hper2
            refine ⟨⟨by rw [r3, r1], Or.inr ⟨n2, by rw [r1, hclamp, hdiv]⟩,
              ?_, by rw [r2, hcnt2, r7.length_eq], r5, r6,
              by rw [r1]; exact r4⟩, hper3, ?_⟩
            · rw [r2, r1, hclamp, hdiv, cap_load_exact]
              have h5 := hshr.2
              rw [hdiv, cap_load_exact] at h5
              show m.count - 1 ≤ 12 * 2 ^ n2
              omega
            · intro hmm
              exact hkey_notmem ((List.Perm.mem_iff r7).mp hmm)
        · rw [if_neg hshr] at hrem2
          obtain ⟨h2, _⟩ := Prod.mk.injEq .. ▸ Option.some.inj hrem2
          rw [← h2]
          refine ⟨⟨hlen2, hshape, by simp; omega, hcnt2, hnodup2, hgs2,
            hpath2⟩, hper2, hkey_notmem⟩

theorem mapRemove_safe {m : ObjMap} {k : Value} {m2 : ObjMap} {r : Value}
    (hs : MapSafe m) (hrem : wrenMapRemoveKey m k = some (m2, r)) :
    MapSafe m2 := by
  obtain ⟨hlen, hshape, hload, hocc⟩ := hs
  simp only [wrenMapRemoveKey] at hrem
  cases hfe : findEntry m k with
  | none => rw [hfe] at hrem; exact absurd hrem (by simp)
  | some o =>
    rw [hfe] at hrem
    cases o with
    | none =>
      simp only at hrem
      obtain ⟨h2, _⟩ := Prod.mk.injEq .. ▸ Option.some.inj hrem
      rw [← h2]
      exact ⟨hlen, hshape, hload, hocc⟩
    | some s =>
      obtain ⟨hcap, hpl, e2, hge2, hu2⟩ := findEntry_found hfe
      have hrem2 : (match m.entries.get? s with
          | none => none
          | some e =>
            if m.count - 1 = 0 then
              some (wrenMapClear (ObjMap.mk m.capacity (m.count - 1)
                (m.entries.set s tombstoneEntry)), e.value)
            else if 16 < m.capacity ∧
                m.count - 1 < m.capacity / 2 * 75 / 100 then
              match resizeMap (ObjMap.mk m.capacity (m.count - 1)
                  (m.entries.set s tombstoneEntry))
                  (if m.capacity / 2 < 16 then 16 else m.capacity / 2) with
              | none => none
              | some m3 => some (m3, e.value)
            else some (ObjMap.mk m.capacity (m.count - 1)
              (m.entries.set s tombstoneEntry), e.value)) =
          some (m2, r) := hrem
      simp only [hge2] at hrem2
      have hocc2 : isOccupiedE e2 = true := by simp [isOccupiedE, hu2]
      obtain ⟨htombP, htombL⟩ := occKeys_set_tombstone hge2 hocc2
      have hkmem : e2.key ∈ occKeys m.entries := key_mem_occKeys hge2 hocc2
      have hone : 1 ≤ (occKeys m.entries).length :=
        List.length_pos_of_mem hkmem
      have hocc1 : (occKeys (m.entries.set s tombstoneEntry)).length ≤
          m.count - 1 := by omega
      have hlen2 : (m.entries.set s tombstoneEntry).length = m.capacity := by
        simp [hlen]
      by_cases hzero : m.count - 1 = 0
      · rw [if_pos hzero] at hrem2
        obtain ⟨h2, _⟩ := Prod.mk.injEq .. ▸ Option.some.inj hrem2
        rw [← h2]
        exact mapSafe_clear
      · rw [if_neg hzero] at hrem2
        by_cases hshr : 16 < m.capacity ∧
            m.count - 1 < m.capacity / 2 * 75 / 100
        · rw [if_pos hshr] at hrem2
          obtain ⟨hclamp, hge16, n2, hdiv, hcapeq⟩ :=
            shrink_cap_facts hshr.1 hshape
          cases hres : resizeMap
              (ObjMap.mk m.capacity (m.count - 1)
                (m.entries.set s tombstoneEntry))
              (if m.capacity / 2 < 16 then 16 else m.capacity / 2) with
          | none => rw [hres] at hrem2; exact absurd hrem2 (by simp)
          | some m3 =>
            rw [hres] at hrem2
            obtain ⟨h2, _⟩ := Prod.mk.injEq .. ▸ Option.some.inj hrem2
            rw [← h2]
            obtain ⟨r1, r2, r3, r4⟩ := resizeMap_safe hlen2 hres
            refine ⟨by rw [r3, r1], Or.inr ⟨n2, by rw [r1, hclamp, hdiv]⟩,
              ?_, ?_⟩
            · rw [r2, r1, hclamp, hdiv, cap_load_exact]
              have h5 := hshr.2
              rw [hdiv, cap_load_exact] at h5
              show m.count - 1 ≤ 12 * 2 ^ n2
              omega
            · have r4b : (occKeys m3.entries).length ≤
                  (occKeys (m.entries.set s tombstoneEntry)).length := r4
              rw [r2]
              show (occKeys m3.entries).length ≤ m.count - 1
              omega
        · rw [if_neg hshr] at hrem2
          obtain ⟨h2, _⟩ := Prod.mk.injEq .. ▸ Option.some.inj hrem2
          rw [← h2]
          exact ⟨hlen2, hshape, by simp; omega, hocc1⟩

/-! ### wrenMapGet after wrenMapSet and after removal -/

theorem addEntry_get_after {entries : List MapEntry} {cap : Nat}
    {k v : Value} {es : List MapEntry} {added : Bool}
    (hcap : 0 < cap) (hgs : goodStored entries) (hk : GoodKey k)
    (hadd : addEntry entries cap k v = some (es, added)) :
    ∃ s, s < cap ∧
      probeLoop es cap k cap (hashValue k % cap) = some s ∧
      es.get? s = some (MapEntry.mk k v) := by
  simp only [addEntry] at hadd
  cases hpl : probeLoop entries cap k cap (hashValue k % cap) with
  | none => rw [hpl] at hadd; exact absurd hadd (by simp)
  | some s =>
    simp only [hpl] at hadd
    cases hge : entries.get? s with
    | none =>
      simp only [hge] at hadd
      exact absurd hadd (by simp)
    | some e =>
      simp only [hge] at hadd
      have hslt : s < entries.length := entry_get?_lt hge
      obtain ⟨j, hjf, hseq, _, hbefore⟩ :=
        probeLoop_some_spec entries cap k cap (hashValue k % cap) s
          (Nat.mod_lt _ hcap) hpl
      have hes : entries.set s (MapEntry.mk k v) = es := by
        by_cases hu : isUndefinedV e.key = true
        · rw [if_pos hu] at hadd
          exact (Prod.mk.injEq .. ▸ Option.some.inj hadd).1
        · rw [if_neg hu] at hadd
          have hkeq : e.key = k :=
            (probe_stop_occupied_eq hcap hgs hpl hge (by simpa using hu)).1
          rw [← hkeq]
          exact (Prod.mk.injEq .. ▸ Option.some.inj hadd).1
      refine ⟨s, by rw [hseq]; exact probeIdx_lt hcap _ _, ?_, ?_⟩
      · rw [hseq]
        apply probeLoop_reaches es cap k cap (hashValue k % cap) j
          (Nat.mod_lt _ hcap) hjf
        · refine ⟨MapEntry.mk k v, ?_, ?_⟩
          · rw [← hes, ← hseq]
            exact entry_get?_set_self hslt _
          · simp [slotStops, hk.1, hk.2.1]
        · intro i hi
          obtain ⟨e3, hge3, hns3⟩ := hbefore i hi
          refine ⟨e3, ?_, hns3⟩
          rw [← hes, entry_get?_set_ne _ _, hge3]
          rw [hseq]
          intro hcontra
          exact probeIdx_inj hi (by omega) hcontra.symm
      · rw [← hes]
        exact entry_get?_set_self hslt _

theorem mapSet_get {m : ObjMap} {k v : Value} {m2 : ObjMap}
    (hwf : MapWf m) (hk : GoodKey k)
    (hset : wrenMapSet m k v = some m2) :
    wrenMapGet m2 k = some v := by
  obtain ⟨hlen, hshape, hload, hcnt, hnodup, hgs, hpath⟩ := hwf
  simp only [wrenMapSet] at hset
  by_cases hgrow : m.count + 1 > m.capacity * 75 / 100
  · rw [if_pos hgrow] at hset
    have hc2ge : 16 ≤ (if m.capacity * 2 < 16 then 16
        else m.capacity * 2) := by
      rcases hshape with h0 | ⟨n, hn⟩
      · rw [h0]
        norm_num
      · have ht : 0 < 2 ^ n := pow_pos (by norm_num) n
        rw [hn, if_neg (by omega)]
        omega
    cases hres : resizeMap m (if m.capacity * 2 < 16 then 16
        else m.capacity * 2) with
    | none => rw [hres] at hset; exact absurd hset (by simp)
    | some m1 =>
      rw [hres] at hset
      have hset2 : (match addEntry m1.entries m1.capacity k v with
          | none => none
          | some (es, added) =>
            some (ObjMap.mk m1.capacity
              (if added then m1.count + 1 else m1.count) es)) = some m2 :=
        hset
      obtain ⟨r1, r2, r3, r4, r5, r6, r7⟩ :=
        resizeMap_wf (by omega) hlen hnodup hgs hres
      cases hae : addEntry m1.entries m1.capacity k v with
      | none => rw [hae] at hset2; exact absurd hset2 (by simp)
      | some p =>
        obtain ⟨es, added⟩ := p
        rw [hae] at hset2
        obtain rfl := Option.some.inj hset2
        obtain ⟨s, hs, hplnew, hgetnew⟩ :=
          addEntry_get_after (by omega : 0 < m1.capacity) r6 hk hae
        simp only [wrenMapGet, findEntry]
        rw [if_neg (by show ¬ m1.capacity = 0; omega)]
        simp only [hplnew, hgetnew]
        rw [if_neg (by simpa using hk.1)]
        show (match es.get? s with
          | none => none
          | some e => some e.value) = some v
        rw [hgetnew]
  · rw [if_neg hgrow] at hset
    have hcap : 0 < m.capacity := by
      by_contra hc
      have h0 : m.capacity = 0 := by omega
      rw [h0] at hgrow
      simp at hgrow
    have hset2 : (match addEntry m.entries m.capacity k v with
        | none => none
        | some (es, added) =>
          some (ObjMap.mk m.capacity
            (if added then m.count + 1 else m.count) es)) = some m2 :=
      hset
    cases hae : addEntry m.entries m.capacity k v with
    | none => rw [hae] at hset2; exact absurd hset2 (by simp)
    | some p =>
      obtain ⟨es, added⟩ := p
      rw [hae] at hset2
      obtain rfl := Option.some.inj hset2
      obtain ⟨s, hs, hplnew, hgetnew⟩ :=
        addEntry_get_after hcap hgs hk hae
      simp only [wrenMapGet, findEntry]
      rw [if_neg (by show ¬ m.capacity = 0; omega)]
      simp only [hplnew, hgetnew]
      rw [if_neg (by simpa using hk.1)]
      show (match es.get? s with
        | none => none
        | some e => some e.value) = some v
      rw [hgetnew]

theorem mapGet_absent {m : ObjMap} {k : Value} {w : Value}
    (hgs : goodStored m.entries)
    (habs : k ∉ occKeys m.entries)
    (hget : wrenMapGet m k = some w) :
    w = Value.vUndefined := by
  simp only [wrenMapGet] at hget
  cases hfe : findEntry m k with
  | none => rw [hfe] at hget; exact absurd hget (by simp)
  | some o =>
    cases o with
    | none =>
      rw [hfe] at hget
      exact (Option.some.inj hget).symm
    | some s =>
      obtain ⟨hcap, hpl, e, hge, hu⟩ := findEntry_found hfe
      obtain ⟨_, hmem⟩ := probe_stop_occupied_eq hcap hgs hpl hge hu
      exact absurd hmem habs

/-! ### Operation sequences: simulation against the spec-level key list -/

theorem runOps_none (ops : List MapOp) :
    ops.foldl (fun acc op => acc.bind (fun mm => runOp mm op)) none =
      none := by
  induction ops with
  | nil => rfl
  | cons op ops ih => exact ih

theorem runOps_sim : ∀ (ops : List MapOp) (m0 : ObjMap) (ks0 : List Value)
    (m : ObjMap), MapWf m0 → List.Perm (occKeys m0.entries) ks0 →
    (∀ op, op ∈ ops → opGood op) → runOps m0 ops = some m →
    MapWf m ∧ List.Perm (occKeys m.entries)
      (ops.foldl specLiveStep ks0) := by
  intro ops
  induction ops with
  | nil =>
    intro m0 ks0 m hwf hperm _ hrun
    have hm : m0 = m := Option.some.inj hrun
    subst hm
    exact ⟨hwf, by simpa using hperm⟩
  | cons op ops ih =>
    intro m0 ks0 m hwf hperm hgood hrun
    have hrun2 : List.foldl (fun acc op => acc.bind
        (fun mm => runOp mm op)) (runOp m0 op) ops = some m := hrun
    cases hop : runOp m0 op with
    | none =>
      rw [hop, runOps_none] at hrun2
      exact absurd hrun2 (by simp)
    | some m1 =>
      rw [hop] at hrun2
      have hrun3 : runOps m1 ops = some m := hrun2
      have hstep : MapWf m1 ∧
          List.Perm (occKeys m1.entries) (specLiveStep ks0 op) := by
        cases op with
        | setOp k v =>
          have hk : GoodKey k := hgood _ (List.mem_cons_self _ _)
          have hop2 : wrenMapSet m0 k v = some m1 := hop
          obtain ⟨hwf1, hp1⟩ := mapSet_wf hwf hk hop2
          refine ⟨hwf1, ?_⟩
          show List.Perm (occKeys m1.entries)
            (if k ∈ ks0 then ks0 else k :: ks0)
          by_cases hmem : k ∈ occKeys m0.entries
          · rw [if_pos ((List.Perm.mem_iff hperm).mp hmem)]
            rw [if_pos hmem] at hp1
            exact hp1.trans hperm
          · rw [if_neg (fun hc => hmem ((List.Perm.mem_iff hperm).mpr hc))]
            rw [if_neg hmem] at hp1
            exact hp1.trans (hperm.cons k)
        | removeOp k =>
          have hk : GoodKey k := hgood _ (List.mem_cons_self _ _)
          have hop2 : (wrenMapRemoveKey m0 k).map Prod.fst = some m1 := hop
          cases hrem : wrenMapRemoveKey m0 k with
          | none =>
            rw [hrem] at hop2
            exact absurd hop2 (by simp)
          | some pr =>
            obtain ⟨mm, rr⟩ := pr
            rw [hrem] at hop2
            have hm1 : mm = m1 := by simpa using hop2
            subst hm1
            obtain ⟨hwf1, hp1, _⟩ := mapRemove_wf hwf hk hrem
            exact ⟨hwf1, hp1.trans (List.Perm.erase k hperm)⟩
        | clearOp =>
          have hm1 : wrenMapClear m0 = m1 := Option.some.inj hop
          rw [← hm1]
          exact ⟨mapWf_clear, by simp [wrenMapClear, occKeys, specLiveStep]⟩
      obtain ⟨hwf1, hp1⟩ := hstep
      have hres := ih m1 (specLiveStep ks0 op) m hwf1 hp1
        (fun o ho => hgood o (List.mem_cons_of_mem _ ho)) hrun3
      simpa using hres

theorem runOps_safe : ∀ (ops : List MapOp) (m0 m : ObjMap), MapSafe m0 →
    runOps m0 ops = some m → MapSafe m := by
  intro ops
  induction ops with
  | nil =>
    intro m0 m hs hrun
    have hm : m0 = m := Option.some.inj hrun
    subst hm
    exact hs
  | cons op ops ih =>
    intro m0 m hs hrun
    have hrun2 : List.foldl (fun acc op => acc.bind
        (fun mm => runOp mm op)) (runOp m0 op) ops = some m := hrun
    cases hop : runOp m0 op with
    | none =>
      rw [hop, runOps_none] at hrun2
      exact absurd hrun2 (by simp)
    | some m1 =>
      rw [hop] at hrun2
      have hrun3 : runOps m1 ops = some m := hrun2
      refine ih m1 m ?_ hrun3
      cases op with
      | setOp k v => exact mapSet_safe hs hop
      | removeOp k =>
        have hop2 : (wrenMapRemoveKey m0 k).map Prod.fst = some m1 := hop
        cases hrem : wrenMapRemoveKey m0 k with
        | none =>
          rw [hrem] at hop2
          exact absurd hop2 (by simp)
        | some pr =>
          obtain ⟨mm, rr⟩ := pr
          rw [hrem] at hop2
          have hm1 : mm = m1 := by simpa using hop2
          subst hm1
          exact mapRemove_safe hs hrem
      | clearOp =>
        have hm1 : wrenMapClear m0 = m1 := Option.some.inj hop
        rw [← hm1]
        exact mapSafe_clear

theorem goodKey_vFiber (n : Nat) : GoodKey (Value.vFiber n) := by
  refine ⟨rfl, by simp [wrenValuesEqual, wrenValuesSame], ?_⟩
  intro k2 h
  cases k2 <;> simp [wrenValuesEqual, wrenValuesSame] at h
  rw [h]

/-! ### Claim theorems for the map -/

/-- C1 counterexample: the original claim fails for keys that are not
well-behaved under wrenValuesEqual.  (i) Setting a NaN-bit-pattern number
key succeeds, but an immediate get probes past the stored entry (NaN is
not valuesEqual to itself) and reports the undefined sentinel instead of
the stored value.  (ii) After starveOps every slot of the capacity-16
table is a live entry or a tombstone; removing the first key succeeds,
but the following get loops over tombstones forever (modelled as none),
so it does not return the undefined sentinel either. -/
theorem map_set_get_remove_count_cex :
    (wrenMapSet wrenNewMap (Value.vNum nanBits) Value.vTrue).isSome =
      true ∧
    wrenMapGet ((wrenMapSet wrenNewMap (Value.vNum nanBits)
      Value.vTrue).getD wrenNewMap) (Value.vNum nanBits) =
      some Value.vUndefined ∧
    (runOps wrenNewMap starveOps).isSome = true ∧
    wrenMapGet ((runOps wrenNewMap starveOps).getD wrenNewMap)
      (Value.vFiber 0) = none := by decide

/-- C1 amended: for maps reached from a fresh map by operations on
well-behaved keys (GoodKey: defined, self-equal, and rigid under
wrenValuesEqual): the count equals the number of distinct keys set and
not subsequently removed; after a terminating wrenMapSet, wrenMapGet
returns the stored value; and after a terminating wrenMapRemoveKey,
any terminating wrenMapGet of that key reports the undefined
sentinel. -/
theorem map_set_get_remove_count {ops : List MapOp} {m : ObjMap}
    (hops : ∀ op, op ∈ ops → opGood op)
    (hrun : runOps wrenNewMap ops = some m) :
    m.count = (specLive ops).length ∧
    (∀ k v m2, GoodKey k → wrenMapSet m k v = some m2 →
      wrenMapGet m2 k = some v) ∧
    (∀ k m2 r w, GoodKey k → wrenMapRemoveKey m k = some (m2, r) →
      wrenMapGet m2 k = some w → w = Value.vUndefined) := by
  have hperm0 : List.Perm (occKeys wrenNewMap.entries) [] := by
    simp [wrenNewMap, occKeys]
  obtain ⟨hwf, hperm⟩ :=
    runOps_sim ops wrenNewMap [] m mapWf_clear hperm0 hops hrun
  refine ⟨?_, ?_, ?_⟩
  · rw [hwf.2.2.2.1]
    exact hperm.length_eq
  · intro k v m2 hk hset
    exact mapSet_get hwf hk hset
  · intro k m2 r w hk hrem hget
    obtain ⟨hwf2, _, habs⟩ := mapRemove_wf hwf hk hrem
    exact mapGet_absent hwf2.2.2.2.2.2.1 habs hget

/-- C1 witness: one set of a fiber key on the fresh map; the count
matches the one live spec key, and a further set is read back. -/
theorem map_set_get_remove_count_witness :
    ((runOps wrenNewMap [MapOp.setOp (Value.vFiber 3) Value.vTrue]).getD
        wrenNewMap).count =
      (specLive [MapOp.setOp (Value.vFiber 3) Value.vTrue]).length ∧
    wrenMapGet ((wrenMapSet ((runOps wrenNewMap [MapOp.setOp
        (Value.vFiber 3) Value.vTrue]).getD wrenNewMap) (Value.vFiber 4)
        Value.vFalse).getD wrenNewMap) (Value.vFiber 4) =
      some Value.vFalse := by
  have h := @map_set_get_remove_count
    [MapOp.setOp (Value.vFiber 3) Value.vTrue]
    ((runOps wrenNewMap [MapOp.setOp (Value.vFiber 3) Value.vTrue]).getD
      wrenNewMap)
    (by intro op hop
        simp only [List.mem_singleton] at hop
        rw [hop]
        exact goodKey_vFiber 3)
    (by rfl)
  refine ⟨h.1, ?_⟩
  exact h.2.1 (Value.vFiber 4) Value.vFalse
    ((wrenMapSet ((runOps wrenNewMap [MapOp.setOp (Value.vFiber 3)
      Value.vTrue]).getD wrenNewMap) (Value.vFiber 4) Value.vFalse).getD
      wrenNewMap)
    (goodKey_vFiber 4) (by rfl)

/-- C5: starting from a fresh map, after any terminating sequence of
set, remove and clear operations the count is at most capacity * 75 /
100, and the capacity is zero or 16 times a power of two (hence at
least 16). -/
theorem map_capacity_invariants {ops : List MapOp} {m : ObjMap}
    (hrun : runOps wrenNewMap ops = some m) :
    m.count ≤ m.capacity * 75 / 100 ∧
    (m.capacity = 0 ∨ 16 ≤ m.capacity) ∧
    (m.capacity = 0 ∨ ∃ n, m.capacity = 16 * 2 ^ n) := by
  obtain ⟨_, hshape, hload, _⟩ :=
    runOps_safe ops wrenNewMap m mapSafe_clear hrun
  refine ⟨hload, ?_, hshape⟩
  rcases hshape with h0 | ⟨n, hn⟩
  · exact Or.inl h0
  · right
    have h1 : 0 < 2 ^ n := pow_pos (by norm_num) n
    omega

/-- C5 witness: after one set on the fresh map the capacity is 16, the
count 1, within the load bound. -/
theorem map_capacity_invariants_witness :
    16 ≤ ((runOps wrenNewMap [MapOp.setOp (Value.vNum 5)
      Value.vTrue]).getD wrenNewMap).capacity := by
  have h := @map_capacity_invariants [MapOp.setOp (Value.vNum 5)
    Value.vTrue]
    ((runOps wrenNewMap [MapOp.setOp (Value.vNum 5) Value.vTrue]).getD
      wrenNewMap)
    (by rfl)
  rcases h.2.1 with h0 | h16
  · exact absurd h0 (by decide)
  · exact h16

/-- C9: when the key is present (a terminating wrenMapGet returns a
stored value, not the undefined sentinel), a terminating
wrenMapRemoveKey returns exactly that value. -/
theorem mapRemove_returns_value {m : ObjMap} {k : Value} {m2 : ObjMap}
    {r w : Value} (hget : wrenMapGet m k = some w)
    (hw : w ≠ Value.vUndefined)
    (hrem : wrenMapRemoveKey m k = some (m2, r)) : r = w := by
  simp only [wrenMapGet] at hget
  simp only [wrenMapRemoveKey] at hrem
  cases hfe : findEntry m k with
  | none => rw [hfe] at hget; exact absurd hget (by simp)
  | some o =>
    rw [hfe] at hget
    rw [hfe] at hrem
    cases o with
    | none => exact absurd (Option.some.inj hget).symm hw
    | some s =>
      have hget2 : (match m.entries.get? s with
          | none => none
          | some e => some e.value) = some w := hget
      have hrem2 : (match m.entries.get? s with
          | none => none
          | some e =>
            if m.count - 1 = 0 then
              some (wrenMapClear (ObjMap.mk m.capacity (m.count - 1)
                (m.entries.set s tombstoneEntry)), e.value)
            else if 16 < m.capacity ∧
                m.count - 1 < m.capacity / 2 * 75 / 100 then
              match resizeMap (ObjMap.mk m.capacity (m.count - 1)
                  (m.entries.set s tombstoneEntry))
                  (if m.capacity / 2 < 16 then 16 else m.capacity / 2) with
              | none => none
              | some m3 => some (m3, e.value)
            else some (ObjMap.mk m.capacity (m.count - 1)
              (m.entries.set s tombstoneEntry), e.value)) =
          some (m2, r) := hrem
      cases hge : m.entries.get? s with
      | none =>
        rw [hge] at hget2
        exact absurd hget2 (by simp)
      | some e =>
        simp only [hge] at hget2 hrem2
        have hwv : e.value = w := Option.some.inj hget2
        have hr : r = e.value := by
          by_cases hzero : m.count - 1 = 0
          · rw [if_pos hzero] at hrem2
            exact ((Prod.mk.injEq .. ▸ Option.some.inj hrem2).2).symm
          · rw [if_neg hzero] at hrem2
            by_cases hshr : 16 < m.capacity ∧
                m.count - 1 < m.capacity / 2 * 75 / 100
            · rw [if_pos hshr] at hrem2
              cases hres : resizeMap (ObjMap.mk m.capacity (m.count - 1)
                  (m.entries.set s tombstoneEntry))
                  (if m.capacity / 2 < 16 then 16
                   else m.capacity / 2) with
              | none => rw [hres] at hrem2; exact absurd hrem2 (by simp)
              | some m3 =>
                rw [hres] at hrem2
                exact ((Prod.mk.injEq .. ▸ Option.some.inj hrem2).2).symm
            · rw [if_neg hshr] at hrem2
              exact ((Prod.mk.injEq .. ▸ Option.some.inj hrem2).2).symm
        rw [hr, hwv]

/-- C9 witness: removing the only key of a one-entry map returns the
value that get reported for it. -/
theorem mapRemove_returns_value_witness :
    ((wrenMapRemoveKey ((runOps wrenNewMap [MapOp.setOp (Value.vFiber 3)
        Value.vTrue]).getD wrenNewMap) (Value.vFiber 3)).getD
      (wrenNewMap, Value.vNull)).2 = Value.vTrue :=
  @mapRemove_returns_value
    ((runOps wrenNewMap [MapOp.setOp (Value.vFiber 3) Value.vTrue]).getD
      wrenNewMap)
    (Value.vFiber 3)
    ((wrenMapRemoveKey ((runOps wrenNewMap [MapOp.setOp (Value.vFiber 3)
        Value.vTrue]).getD wrenNewMap) (Value.vFiber 3)).getD
      (wrenNewMap, Value.vNull)).1
    ((wrenMapRemoveKey ((runOps wrenNewMap [MapOp.setOp (Value.vFiber 3)
        Value.vTrue]).getD wrenNewMap) (Value.vFiber 3)).getD
      (wrenNewMap, Value.vNull)).2
    Value.vTrue
    (by rfl) (by simp) (by rfl)

end WrenSpec
